import Mathlib

/-!
Verification development for the TODOKANAI storage core.

This file gives a shallow embedding, in Lean 4, of the two storage
subsystems of the repository and settles a list of claims about them:

* `sfs` — the encrypted block store (`src/util/sfs.hpp`, `src/util/sfs.cpp`):
  a file of sealed 4096-byte blocks, each holding a 4064-byte plaintext
  payload, AES-256-GCM sealed with additional authenticated data
  `(container_id, block_index)`.
* `sstl` — the compact value encoder (`src/util/sstl.hpp`): a tagged,
  self-describing byte format with reading / probing / writing modes.
* `ssdb` — the log-structured keyed map (`src/util/ssdb.hpp`,
  `src/util/ssdb.cpp`): free-space interval index, XOR-combined HMAC hash
  of the live record set, copy-on-write record runs, terminator blocks,
  and the three-pass recovery scan.

Modelling conventions:

* Machine integers (`u32`, `u64`) are represented by `Nat`; wherever the
  C++ arithmetic can wrap, the model computes `% 2^32` or `% 2^64`
  explicitly, exactly where the source wraps.
* AES-256-GCM is an external OpenSSL primitive, not code of this
  repository.  It is modelled as an ideal authenticated cipher: a sealed
  block on disk is the plaintext payload together with the AAD it was
  sealed under, and opening succeeds exactly when the AAD requested by
  the reader matches the AAD the block was sealed with.  This is the
  standard idealization of AEAD: decryption of an intact sealed block
  with the correct key and AAD succeeds, and any AAD mismatch fails tag
  verification.
* Physical write failures (RNG failure, I/O errors) are modelled by a
  per-block-index failure oracle on the view; a failed `write_block`
  leaves the file unchanged.
* HMAC-SHA-512 is likewise external.  The XOR-accumulator of HMAC values
  is modelled in the free XOR-group generated by the hashed messages:
  the accumulator is the finite set of `(order, position)` pairs whose
  HMAC images have been XOR-ed in an odd number of times, and
  `symmDiff` plays the role of XOR.  Every identity proved in this free
  model holds for every concrete instantiation of the HMAC function,
  because XOR-ing `H(m)` twice cancels regardless of `H`.
-/

namespace sfs

/-- Plaintext payload size of one sealed block (`sfs::block_size = 4096 - 32`). -/
def block_size : Nat := 4064

/-- Data area of one `ssdb::block_layout` (4064 bytes minus the four 8-byte header words). -/
def data_size : Nat := 4032

/-- A sealed block at rest: the payload together with the additional
authenticated data (container identifier and block index) it was sealed
under.  The random nonce and the GCM tag are not modelled; under the
ideal-cipher reading they only determine *whether* opening succeeds,
which is captured by comparing the AAD. -/
structure SealedBlock (α : Type) where
  ident : Nat
  index : Nat
  payload : α
  deriving DecidableEq

/-- The `sfs::view` state: the sequence of sealed blocks currently in the
file (`m_count = blocks.length`), plus an oracle telling which physical
block writes fail (modelling RNG / seek / write errors in
`sfs::view::write_block`). -/
structure View (α : Type) where
  blocks : List (SealedBlock α)
  failsAt : Nat → Bool

/-- Block count of the view (`sfs::view::count`). -/
def View.count (v : View α) : Nat := v.blocks.length

/-- Model of `sfs::view::read_block`: fails if the index is beyond the
block count, and otherwise opens the sealed block with AAD
`(ident, block)`; opening succeeds exactly when that AAD matches the AAD
the block was sealed under. -/
def readBlock (v : View α) (block : Nat) (ident : Nat) : Option α :=
  match v.blocks[block]? with
  | none => none
  | some b => if b.ident = ident ∧ b.index = block then some b.payload else none

/-- Model of `sfs::view::write_block`: fails if the index is strictly
beyond the block count or if the physical write fails; on success the
payload is sealed with AAD `(ident, block)` and stored, and the count
grows by one exactly when `block = count`. -/
def writeBlock (v : View α) (block : Nat) (payload : α) (ident : Nat) : Option (View α) :=
  if block > v.count ∨ v.failsAt block then
    none
  else if block = v.count then
    some { v with blocks := v.blocks ++ [⟨ident, block, payload⟩] }
  else
    some { v with blocks := v.blocks.set block ⟨ident, block, payload⟩ }

end sfs

namespace sfs

/-- C3.  For every block index `i`, payload `P` and container id `c`:
`write_block(i, P, c)` fails when `i > count`; on success with
`i = count` the block count grows by exactly one; after a successful
`write_block(i, P, c)`, `read_block(i, c)` succeeds and returns exactly
`P`, while `read_block(i, c')` fails for every container id `c' ≠ c`;
and `read_block(i, c)` fails whenever `i ≥ count`. -/
theorem write_read_block_spec {α : Type} (v : View α) (i : Nat) (P : α) (c : Nat) :
    (i > v.count → writeBlock v i P c = none)
    ∧ (∀ v', writeBlock v i P c = some v' →
        (i = v.count → v'.count = v.count + 1)
        ∧ readBlock v' i c = some P
        ∧ ∀ c', c' ≠ c → readBlock v' i c' = none)
    ∧ (i ≥ v.count → readBlock v i c = none) := by
  refine ⟨?_, ?_, ?_⟩
  · intro hi
    simp [writeBlock, hi]
  · intro v' hv'
    unfold writeBlock at hv'
    split at hv'
    · exact absurd hv' (by simp)
    · split at hv'
      · cases hv'
        rename_i hcnt heq
        refine ⟨fun _ => by simp [View.count], ?_, ?_⟩
        · simp [readBlock, View.count, heq, List.getElem?_concat_length]
        · intro c' hc'
          simp [readBlock, View.count, heq, List.getElem?_concat_length, Ne.symm hc']
      · cases hv'
        rename_i hcnt heq
        have hlt : i < v.blocks.length := by
          rcases Nat.lt_or_ge i v.blocks.length with h | h
          · exact h
          · exact absurd (Nat.le_antisymm (Nat.not_lt.mp (fun hh => hcnt (Or.inl hh))) h) heq
        refine ⟨fun hie => absurd hie heq, ?_, ?_⟩
        · simp [readBlock, View.count, List.getElem?_set_self, hlt]
        · intro c' hc'
          simp [readBlock, View.count, List.getElem?_set_self, hlt, Ne.symm hc']
  · intro hi
    have : v.blocks[i]? = none := by
      rw [List.getElem?_eq_none]
      exact hi
    simp [readBlock, this]

/-- Witness for `sfs.write_read_block_spec`: writing payload `7` at index
`0` of an empty view with container id `5` succeeds, reading it back
with id `5` yields `7`, and reading with id `0` fails. -/
theorem write_read_block_spec_witness :
    readBlock (⟨[⟨5, 0, 7⟩], fun _ => false⟩ : View Nat) 0 5 = some 7 ∧
    readBlock (⟨[⟨5, 0, 7⟩], fun _ => false⟩ : View Nat) 0 0 = none := by
  have h := (write_read_block_spec (α := Nat) ⟨[], fun _ => false⟩ 0 7 5).2.1
    ⟨[⟨5, 0, 7⟩], fun _ => false⟩ rfl
  exact ⟨h.2.1, h.2.2 0 (by decide)⟩

end sfs

namespace ssdb

/-- The u32 modulus: free-space arithmetic in `ssdb::free_space` is done on
`std::uint32_t` and wraps at this value. -/
def two32 : Nat := 2 ^ 32

/-- The u64 modulus: orders and sizes in `ssdb::umap` are `std::uint64_t`. -/
def two64 : Nat := 2 ^ 64

/-- The free-space index `ssdb::free_space::m_free`: a `std::map` from
interval start to interval length, modelled as a list of `(start, length)`
pairs kept sorted by start. -/
abbrev Free := List (Nat × Nat)

/-- Overflow clamp of `ssdb::free_space::add_free`: in the source,
`if (it->second + block < block) it->second = UINT32_MAX - block`, with the
addition wrapping at 2^32. -/
def clampLen (block len : Nat) : Nat :=
  if (len + block) % two32 < block then (two32 - 1) - block else len

/-- Merge step with the successor entry in `ssdb::free_space::add_free`: if
the current interval reaches the next entry's start (u32 comparison), the
next entry is folded in; the length update
`it->second += it3->second - (it->first + it->second - it3->first)` collapses
to `next.start + next.len - cur.start` modulo 2^32. -/
def mergeNext (pre : Free) (cur : Nat × Nat) (post : Free) : Free :=
  match post.head? with
  | some q =>
    if (cur.1 + cur.2) % two32 ≥ q.1 then
      pre ++ (cur.1, ((q.1 + q.2) - cur.1) % two32) :: post.tail
    else
      pre ++ cur :: post
  | none => pre ++ [cur]

/-- Merge step with the predecessor entry in `ssdb::free_space::add_free`:
after clamping, if the previous entry reaches the inserted one
(`it2->first + it2->second >= it->first`, u32 comparison), it absorbs it;
the length update `it2->second += it->second - (it2->first + it2->second -
it->first)` collapses to `block + len - prev.start` modulo 2^32.  The
successor merge follows either way. -/
def addFreeCore (pre post1 : Free) (block len : Nat) : Free :=
  match pre.getLast? with
  | some p =>
    if (p.1 + p.2) % two32 ≥ block then
      mergeNext pre.dropLast (p.1, ((block + len) - p.1) % two32) post1
    else
      mergeNext pre (block, len) post1
  | none => mergeNext pre (block, len) post1

/-- Emplace-and-extend step of `ssdb::free_space::add_free`: `emplace`
keeps the existing entry when the key is already present, and
`if (it->second < count) it->second = count` extends it; the length is
then clamped on u32 overflow.  `pre`/`post` are the entries with keys
below / at-or-above `block`. -/
def addFreeAux (pre post : Free) (block count : Nat) : Free :=
  match post.head? with
  | some e =>
    if e.1 = block then
      addFreeCore pre post.tail block (clampLen block (if e.2 < count then count else e.2))
    else
      addFreeCore pre post block (clampLen block count)
  | none => addFreeCore pre [] block (clampLen block count)

/-- Model of `ssdb::free_space::add_free`.  Mirrors the source step by
step: return on zero length; emplace / extend / clamp; merge with the
previous entry; merge with the next entry. -/
def addFree (m : Free) (block count : Nat) : Free :=
  if count = 0 then m
  else addFreeAux (m.takeWhile fun e => e.1 < block) (m.dropWhile fun e => e.1 < block) block count

/-- The best-fit scan of `ssdb::free_space::get_free`: walk the map in key
order, keep the first entry of the smallest sufficient length, and stop
early on an exact fit. -/
def bestFit : Free → Nat → Option (Nat × Nat)
  | [], _ => none
  | a :: rest, c =>
    if c ≤ a.2 then
      if a.2 = c then some a
      else
        match bestFit rest c with
        | some e => if e.2 < a.2 then some e else some a
        | none => some a
    else bestFit rest c

/-- Removal of the map entry with the given key (`m_free.erase(res)`). -/
def removeKey : Free → Nat → Free
  | [], _ => []
  | e :: rest, k => if e.1 = k then rest else e :: removeKey rest k

/-- Sorted-position insertion modelling `std::map::emplace`: a no-op when
the key is already present. -/
def sortedEmplace (m : Free) (k v : Nat) : Free :=
  match (m.dropWhile fun e => e.1 < k).head? with
  | some e =>
    if e.1 = k then m
    else (m.takeWhile fun e => e.1 < k) ++ (k, v) :: (m.dropWhile fun e => e.1 < k)
  | none => (m.takeWhile fun e => e.1 < k) ++ [(k, v)]

/-- Model of `ssdb::free_space::get_free`.  `none` models the
`std::bad_alloc` throw.  On an empty map (the "entire 2^32 block space is
free" sentinel) the map is initialized to the remainder `(count, 0 - count)`
(u32 arithmetic) and `0` is returned; otherwise the best-fit entry loses
`count` blocks from its front, and when the removal empties the map a
`(0, 0)` dummy is inserted so the sentinel meaning is not restored. -/
def getFree (m : Free) (count : Nat) : Option (Nat × Free) :=
  match bestFit m count with
  | none =>
    if m.isEmpty then
      some (0, if count = 0 then m else [(count, (two32 - count) % two32)])
    else none
  | some (pos, len) =>
    if len - count ≠ 0 then
      some (pos, sortedEmplace (removeKey m pos) (pos + count) (len - count))
    else
      some (pos, if (removeKey m pos).isEmpty then [(0, 0)] else removeKey m pos)

/-- A block index is free when some stored interval contains it. -/
def memFree (m : Free) (x : Nat) : Prop :=
  ∃ e ∈ m, e.1 ≤ x ∧ x < e.1 + e.2

instance (m : Free) (x : Nat) : Decidable (memFree m x) :=
  inferInstanceAs (Decidable (∃ e ∈ m, e.1 ≤ x ∧ x < e.1 + e.2))

/-- Separation of two interval entries: strictly increasing starts, the
first interval ends no later than the second starts, and two nonempty
intervals may not even abut. -/
def Sep (a b : Nat × Nat) : Prop :=
  a.1 < b.1 ∧ a.1 + a.2 ≤ b.1 ∧ (0 < a.2 → 0 < b.2 → a.1 + a.2 < b.1)

/-- Well-formedness of the free-space map: consecutive entries are
separated, and every interval ends within the u32 address space (at or
before block 2^32 − 1). -/
def Wf (m : Free) : Prop :=
  m.Chain' Sep ∧ ∀ e ∈ m, e.1 + e.2 ≤ two32 - 1

/-- Pairwise set-disjointness of the stored intervals. -/
def pairwiseDisjoint (m : Free) : Prop :=
  m.Pairwise fun a b => ∀ x, ¬((a.1 ≤ x ∧ x < a.1 + a.2) ∧ (b.1 ≤ x ∧ x < b.1 + b.2))

/-- No two nonempty stored intervals abut each other. -/
def noAbut (m : Free) : Prop :=
  m.Pairwise fun a b => 0 < a.2 → 0 < b.2 → a.1 + a.2 ≠ b.1 ∧ b.1 + b.2 ≠ a.1

end ssdb

namespace ssdb

instance (a b : Nat × Nat) : Decidable (Sep a b) :=
  inferInstanceAs (Decidable (a.1 < b.1 ∧ a.1 + a.2 ≤ b.1 ∧ (0 < a.2 → 0 < b.2 → a.1 + a.2 < b.1)))

instance (m : Free) : Decidable (Wf m) :=
  inferInstanceAs (Decidable (m.Chain' Sep ∧ ∀ e ∈ m, e.1 + e.2 ≤ two32 - 1))

theorem sep_trans {a b c : Nat × Nat} (h1 : Sep a b) (h2 : Sep b c) : Sep a c := by
  obtain ⟨k1, e1, _⟩ := h1
  obtain ⟨k2, e2, _⟩ := h2
  exact ⟨k1.trans k2, e1.trans ((Nat.le_add_right _ _).trans e2),
    fun _ _ => lt_of_le_of_lt e1 k2⟩

instance : IsTrans (Nat × Nat) Sep := ⟨fun _ _ _ => sep_trans⟩

theorem wf_pairwise {m : Free} (h : Wf m) : m.Pairwise Sep :=
  List.chain'_iff_pairwise.mp h.1

theorem wf_disjoint {m : Free} (h : Wf m) : pairwiseDisjoint m := by
  refine (wf_pairwise h).imp ?_
  rintro a b ⟨-, he, -⟩ x ⟨⟨-, hx2⟩, hx3, -⟩
  omega

theorem wf_noAbut {m : Free} (h : Wf m) : noAbut m := by
  refine (wf_pairwise h).imp ?_
  rintro a b ⟨hk, -, hs⟩ ha hb
  have := hs ha hb
  omega

theorem clampLen_bound {block : Nat} (hb : block < two32) {ext : Nat} (hext : ext < two32) :
    block + clampLen block ext ≤ two32 - 1 := by
  unfold clampLen
  split
  · omega
  · rename_i h
    by_contra hc
    have h2 : (ext + block) % two32 = ext + block - two32 := by
      rw [Nat.mod_eq_sub_mod (by omega)]
      exact Nat.mod_eq_of_lt (by omega)
    omega

theorem mergeNext_wf {pre post : Free} {cur : Nat × Nat}
    (hcpre : List.Chain' Sep pre) (hcpost : List.Chain' Sep post)
    (hpre32 : ∀ e ∈ pre, e.1 + e.2 ≤ two32 - 1)
    (hpost32 : ∀ e ∈ post, e.1 + e.2 ≤ two32 - 1)
    (hcur32 : cur.1 + cur.2 ≤ two32 - 1)
    (hlink1 : ∀ p ∈ pre.getLast?, Sep p cur)
    (hlink2 : ∀ q ∈ post.head?, cur.1 < q.1) :
    Wf (mergeNext pre cur post) := by
  unfold mergeNext
  cases post with
  | nil =>
    simp only [List.head?_nil]
    constructor
    · rw [List.chain'_append]
      refine ⟨hcpre, List.chain'_singleton _, ?_⟩
      intro x hx y hy
      simp only [List.head?_cons, Option.mem_def, Option.some.injEq] at hy
      subst hy
      exact hlink1 x hx
    · intro e he
      rcases List.mem_append.mp he with h | h
      · exact hpre32 e h
      · simp only [List.mem_singleton] at h
        subst h
        exact hcur32
  | cons q tl =>
    simp only [List.head?_cons, List.tail_cons]
    have hq1 : cur.1 < q.1 := hlink2 q rfl
    have hq32 : q.1 + q.2 ≤ two32 - 1 := hpost32 q (List.mem_cons_self _ _)
    have h32 : two32 = 4294967296 := rfl
    have hmod : (cur.1 + cur.2) % two32 = cur.1 + cur.2 := Nat.mod_eq_of_lt (by omega)
    obtain ⟨hqr, htl⟩ := List.chain'_cons'.mp hcpost
    split
    · -- the current interval reaches the next entry: absorb it
      rename_i hcond
      rw [hmod] at hcond
      have hcur2 : 0 < cur.2 := by omega
      have hval : (q.1 + q.2 - cur.1) % two32 = q.1 + q.2 - cur.1 :=
        Nat.mod_eq_of_lt (by omega)
      constructor
      · rw [List.chain'_append, List.chain'_cons']
        refine ⟨hcpre, ⟨?_, htl⟩, ?_⟩
        · intro r hr
          have hqrr := hqr r hr
          obtain ⟨hk, he, hs⟩ := hqrr
          refine ⟨by omega, by rw [hval]; omega, ?_⟩
          intro _ hr2
          rcases Nat.eq_zero_or_pos q.2 with h0 | h0
          · omega
          · have := hs h0 hr2
            omega
        · intro x hx y hy
          simp only [List.head?_cons, Option.mem_def, Option.some.injEq] at hy
          subst hy
          obtain ⟨hk, he, hs⟩ := hlink1 x hx
          exact ⟨hk, he, fun hx2 _ => hs hx2 hcur2⟩
      · intro e he
        rcases List.mem_append.mp he with h | h
        · exact hpre32 e h
        · rcases List.mem_cons.mp h with h | h
          · subst h
            simpa [hval] using by omega
          · exact hpost32 e (List.mem_cons_of_mem _ h)
    · -- no merge: the current interval ends strictly before the next entry
      rename_i hcond
      rw [hmod] at hcond
      push_neg at hcond
      constructor
      · rw [List.chain'_append, List.chain'_cons']
        refine ⟨hcpre, ⟨?_, hcpost⟩, ?_⟩
        · intro r hr
          simp only [List.head?_cons, Option.mem_def, Option.some.injEq] at hr
          subst hr
          exact ⟨hq1, by omega, fun _ _ => hcond⟩
        · intro x hx y hy
          simp only [List.head?_cons, Option.mem_def, Option.some.injEq] at hy
          subst hy
          exact hlink1 x hx
      · intro e he
        rcases List.mem_append.mp he with h | h
        · exact hpre32 e h
        · rcases List.mem_cons.mp h with h | h
          · subst h
            exact hcur32
          · exact hpost32 e h

end ssdb

namespace ssdb

theorem addFreeCore_wf {pre post1 : Free} {block len : Nat}
    (hcpre : List.Chain' Sep pre) (hcpost : List.Chain' Sep post1)
    (hpre32 : ∀ e ∈ pre, e.1 + e.2 ≤ two32 - 1)
    (hpost32 : ∀ e ∈ post1, e.1 + e.2 ≤ two32 - 1)
    (hlen : block + len ≤ two32 - 1)
    (hpre_lt : ∀ e ∈ pre, e.1 < block)
    (hpost_gt : ∀ q ∈ post1.head?, block < q.1) :
    Wf (addFreeCore pre post1 block len) := by
  unfold addFreeCore
  split
  case h_2 hl =>
    exact mergeNext_wf hcpre hcpost hpre32 hpost32 hlen (by simp [hl]) hpost_gt
  case h_1 p hl =>
    have hp_mem : p ∈ pre := List.mem_of_mem_getLast? hl
    have hp32 := hpre32 p hp_mem
    have hpb := hpre_lt p hp_mem
    have h32 : two32 = 4294967296 := rfl
    have hmod : (p.1 + p.2) % two32 = p.1 + p.2 := Nat.mod_eq_of_lt (by omega)
    split
    · rename_i hcond
      rw [hmod] at hcond
      have hp2 : 0 < p.2 := by omega
      have hdecomp : pre.dropLast ++ [p] = pre := List.dropLast_append_getLast? p hl
      have hsplit := List.chain'_append.mp (by rw [hdecomp]; exact hcpre)
      have hvmod : ((block + len) - p.1) % two32 = (block + len) - p.1 :=
        Nat.mod_eq_of_lt (by omega)
      refine mergeNext_wf hsplit.1 hcpost ?_ hpost32 ?_ ?_ ?_
      · intro e he
        exact hpre32 e (List.dropLast_subset _ he)
      · simp only [hvmod]
        omega
      · intro x hx
        obtain ⟨hk, he, hs⟩ := hsplit.2.2 x hx p (by simp)
        exact ⟨hk, he, fun hx2 _ => hs hx2 hp2⟩
      · intro q hq
        have := hpost_gt q hq
        omega
    · rename_i hcond
      rw [hmod] at hcond
      push_neg at hcond
      refine mergeNext_wf hcpre hcpost hpre32 hpost32 hlen ?_ hpost_gt
      intro x hx
      rw [hl, Option.mem_def, Option.some.injEq] at hx
      subst hx
      exact ⟨hpb, by omega, fun _ _ => hcond⟩

theorem addFreeAux_wf {pre post : Free} {block count : Nat}
    (hb : block < two32) (hcnt : count < two32)
    (hcpre : List.Chain' Sep pre) (hcpost : List.Chain' Sep post)
    (hpre32 : ∀ e ∈ pre, e.1 + e.2 ≤ two32 - 1)
    (hpost32 : ∀ e ∈ post, e.1 + e.2 ≤ two32 - 1)
    (hpre_lt : ∀ e ∈ pre, e.1 < block)
    (hpost_ge : ∀ q ∈ post.head?, block ≤ q.1) :
    Wf (addFreeAux pre post block count) := by
  unfold addFreeAux
  cases post with
  | nil =>
    simp only [List.head?_nil]
    exact addFreeCore_wf hcpre List.chain'_nil hpre32 (by simp) (clampLen_bound hb hcnt)
      hpre_lt (by simp)
  | cons e tl =>
    simp only [List.head?_cons, List.tail_cons]
    have h32 : two32 = 4294967296 := rfl
    have he32 := hpost32 e (List.mem_cons_self _ _)
    obtain ⟨hlink, htl⟩ := List.chain'_cons'.mp hcpost
    split
    · rename_i heq
      have hext : (if e.2 < count then count else e.2) < two32 := by
        split <;> omega
      refine addFreeCore_wf hcpre htl hpre32
        (fun x hx => hpost32 x (List.mem_cons_of_mem _ hx))
        (clampLen_bound hb hext) hpre_lt ?_
      intro q hq
      have := (hlink q hq).1
      omega
    · rename_i hne
      refine addFreeCore_wf hcpre hcpost hpre32 hpost32 (clampLen_bound hb hcnt) hpre_lt ?_
      intro q hq
      rw [List.head?_cons, Option.mem_def, Option.some.injEq] at hq
      subst hq
      have := hpost_ge e (by simp)
      omega

theorem addFree_wf {m : Free} {block count : Nat}
    (hb : block < two32) (hcnt : count < two32) (h : Wf m) :
    Wf (addFree m block count) := by
  unfold addFree
  split
  · exact h
  · have hm : (m.takeWhile fun e => e.1 < block) ++ (m.dropWhile fun e => e.1 < block) = m :=
      List.takeWhile_append_dropWhile _ _
    obtain ⟨hcpre, hcpost, -⟩ := List.chain'_append.mp (by rw [hm]; exact h.1)
    refine addFreeAux_wf hb hcnt hcpre hcpost ?_ ?_ ?_ ?_
    · intro e he
      exact h.2 e (by rw [← hm]; exact List.mem_append_left _ he)
    · intro e he
      exact h.2 e (by rw [← hm]; exact List.mem_append_right _ he)
    · intro e he
      simpa using List.mem_takeWhile_imp he
    · intro q hq
      have h3 := List.head?_dropWhile_not (fun e => decide (e.1 < block)) m
      rw [Option.mem_def] at hq
      rw [hq] at h3
      simpa using h3

/-- C8 (amended).  Provided every stored interval of the free-space map is
separated from the next and ends within the u32 address space
(`start + length ≤ 2^32 − 1`), after any call `add_free(block, count)` with
u32 arguments the stored intervals are pairwise disjoint as block sets, no
two nonempty intervals overlap or abut, and the same well-formedness holds
again (so it is preserved across every such call). -/
theorem addFree_disjoint_coalesced {m : Free} {block count : Nat}
    (hb : block < two32) (hcnt : count < two32) (h : Wf m) :
    pairwiseDisjoint (addFree m block count) ∧ noAbut (addFree m block count) ∧
      Wf (addFree m block count) := by
  have hw := addFree_wf hb hcnt h
  exact ⟨wf_disjoint hw, wf_noAbut hw, hw⟩

/-- Witness for `ssdb.addFree_disjoint_coalesced` at the concrete map
`[(3, 2), (10, 5)]` with `add_free(6, 2)`. -/
theorem addFree_disjoint_coalesced_witness :
    pairwiseDisjoint (addFree [(3, 2), (10, 5)] 6 2) ∧ noAbut (addFree [(3, 2), (10, 5)] 6 2) ∧
      Wf (addFree [(3, 2), (10, 5)] 6 2) :=
  addFree_disjoint_coalesced (by decide) (by decide)
    ⟨by simp [List.chain'_cons', Sep, two32], by decide⟩

/-- C8 counterexample.  The map `[(4, 2^32 − 4)]` stores a single interval,
so it is trivially pairwise disjoint and maximally coalesced — and it is
exactly the map `get_free` seeds when the first allocation of a fresh
container asks for 4 blocks.  Yet `add_free(10, 5)` leaves both
`(4, 2^32 − 4)` and `(10, 5)` stored: the u32 predecessor check
`prev.start + prev.len >= 10` wraps to `0 >= 10` and fails, so no merge
happens and the two stored intervals overlap at block 10. -/
theorem addFree_overlap_cex :
    addFree [(4, two32 - 4)] 10 5 = [(4, two32 - 4), (10, 5)] ∧
    ¬ pairwiseDisjoint (addFree [(4, two32 - 4)] 10 5) := by
  have he : addFree [(4, two32 - 4)] 10 5 = [(4, two32 - 4), (10, 5)] := by decide
  refine ⟨he, ?_⟩
  intro hp
  rw [he] at hp
  rcases List.pairwise_cons.mp hp with ⟨hfirst, -⟩
  have h32 : two32 = 4294967296 := rfl
  exact hfirst (10, 5) (by simp) 10 (by constructor <;> constructor <;> omega)

end ssdb

namespace ssdb

theorem bestFit_none {m : Free} {c : Nat} (h : bestFit m c = none) : ∀ e ∈ m, e.2 < c := by
  induction m with
  | nil => simp
  | cons a rest ih =>
    rw [bestFit] at h
    intro e he
    have hrest : ∀ e ∈ rest, e.2 < c → True := fun _ _ _ => trivial
    by_cases hca : c ≤ a.2
    · rw [if_pos hca] at h
      exfalso
      by_cases hac : a.2 = c
      · rw [if_pos hac] at h
        simp at h
      · rw [if_neg hac] at h
        rcases hb : bestFit rest c with - | f
        · simp only [hb] at h
          simp at h
        · simp only [hb] at h
          split at h <;> simp at h
    · rw [if_neg hca] at h
      rcases List.mem_cons.mp he with rfl | hmem
      · omega
      · exact ih h e hmem

theorem bestFit_eq_none {m : Free} {c : Nat} (h : ∀ e ∈ m, e.2 < c) : bestFit m c = none := by
  induction m with
  | nil => rfl
  | cons a rest ih =>
    rw [bestFit]
    have ha := h a (List.mem_cons_self _ _)
    rw [if_neg (by omega)]
    exact ih fun e he => h e (List.mem_cons_of_mem _ he)

theorem bestFit_mem {m : Free} {c : Nat} {e : Nat × Nat} (h : bestFit m c = some e) :
    e ∈ m ∧ c ≤ e.2 := by
  induction m with
  | nil => simp [bestFit] at h
  | cons a rest ih =>
    rw [bestFit] at h
    by_cases hca : c ≤ a.2
    · rw [if_pos hca] at h
      by_cases hac : a.2 = c
      · rw [if_pos hac] at h
        cases h
        exact ⟨List.mem_cons_self _ _, hca⟩
      · rw [if_neg hac] at h
        rcases hb : bestFit rest c with - | f
        · simp only [hb] at h
          cases h
          exact ⟨List.mem_cons_self _ _, hca⟩
        · simp only [hb] at h
          split at h <;> cases h
          · exact ⟨List.mem_cons_of_mem _ (ih hb).1, (ih hb).2⟩
          · exact ⟨List.mem_cons_self _ _, hca⟩
    · rw [if_neg hca] at h
      exact ⟨List.mem_cons_of_mem _ (ih h).1, (ih h).2⟩

theorem bestFit_min {m : Free} {c : Nat} :
    ∀ e, bestFit m c = some e → ∀ e' ∈ m, c ≤ e'.2 → e.2 ≤ e'.2 := by
  induction m with
  | nil =>
    intro e h
    simp [bestFit] at h
  | cons a rest ih =>
    intro e h e' he' hce'
    rw [bestFit] at h
    by_cases hca : c ≤ a.2
    · rw [if_pos hca] at h
      by_cases hac : a.2 = c
      · rw [if_pos hac] at h
        cases h
        rw [hac]
        exact hce'
      · rw [if_neg hac] at h
        rcases hb : bestFit rest c with - | f
        · simp only [hb] at h
          cases h
          rcases List.mem_cons.mp he' with rfl | hmem
          · exact le_refl _
          · exact absurd hce' (by have := bestFit_none hb e' hmem; omega)
        · simp only [hb] at h
          split at h <;> cases h
          · rcases List.mem_cons.mp he' with rfl | hmem
            · omega
            · exact ih e hb e' hmem hce'
          · rcases List.mem_cons.mp he' with rfl | hmem
            · exact le_refl _
            · have := ih f hb e' hmem hce'
              omega
    · rw [if_neg hca] at h
      rcases List.mem_cons.mp he' with rfl | hmem
      · omega
      · exact ih e h e' hmem hce'

theorem wf_keys_sorted {m : Free} (h : Wf m) :
    m.Pairwise fun a b : Nat × Nat => a.1 < b.1 :=
  (wf_pairwise h).imp fun hs => hs.1

theorem wf_semiSep {m : Free} (h : Wf m) {a b : Nat × Nat} (ha : a ∈ m) (hb : b ∈ m)
    (hne : a ≠ b) : Sep a b ∨ Sep b a := by
  have hp : m.Pairwise fun x y : Nat × Nat => Sep x y ∨ Sep y x :=
    (wf_pairwise h).imp Or.inl
  exact hp.forall (fun x y hxy => hxy.symm) ha hb hne

theorem mem_removeKey_of_mem {m : Free} {pos len : Nat}
    (hnd : m.Pairwise fun a b : Nat × Nat => a.1 < b.1) (hmem : (pos, len) ∈ m) :
    ∀ e, e ∈ removeKey m pos ↔ (e ∈ m ∧ e ≠ (pos, len)) := by
  induction m with
  | nil => simp at hmem
  | cons a rest ih =>
    obtain ⟨ha, hrest⟩ := List.pairwise_cons.mp hnd
    by_cases hak : a.1 = pos
    · have haeq : a = (pos, len) := by
        rcases List.mem_cons.mp hmem with hh | hh
        · exact hh.symm
        · exact absurd hak (by have := ha _ hh; omega)
      subst haeq
      rw [removeKey, if_pos hak]
      intro e
      constructor
      · intro he
        refine ⟨List.mem_cons_of_mem _ he, fun heq => ?_⟩
        subst heq
        have := ha _ he
        omega
      · rintro ⟨he, hne⟩
        rcases List.mem_cons.mp he with hh | hh
        · exact absurd hh hne
        · exact hh
    · have hmem' : (pos, len) ∈ rest := by
        rcases List.mem_cons.mp hmem with hh | hh
        · rw [← hh] at hak
          simp at hak
        · exact hh
      rw [removeKey, if_neg hak]
      intro e
      rw [List.mem_cons, ih hrest hmem' e, List.mem_cons]
      constructor
      · rintro (rfl | ⟨he, hne⟩)
        · exact ⟨Or.inl rfl, fun hh => hak (by rw [hh])⟩
        · exact ⟨Or.inr he, hne⟩
      · rintro ⟨(rfl | he), hne⟩
        · exact Or.inl rfl
        · exact Or.inr ⟨he, hne⟩

theorem mem_sortedEmplace {m : Free} {k v : Nat} (hfresh : ∀ e ∈ m, e.1 ≠ k) :
    ∀ e, e ∈ sortedEmplace m k v ↔ (e ∈ m ∨ e = (k, v)) := by
  unfold sortedEmplace
  have hm : (m.takeWhile fun e => e.1 < k) ++ (m.dropWhile fun e => e.1 < k) = m :=
    List.takeWhile_append_dropWhile _ _
  intro e
  cases hh : (m.dropWhile fun e => e.1 < k).head? with
  | none =>
    have hnil : (m.dropWhile fun e => e.1 < k) = [] := by
      rwa [List.head?_eq_none_iff] at hh
    conv_rhs => rw [← hm]
    rw [hnil]
    simp
  | some q =>
    have hq : q ∈ m := by
      rw [← hm]
      exact List.mem_append_right _ (List.mem_of_mem_head? hh)
    simp only []
    rw [if_neg (hfresh q hq)]
    conv_rhs => rw [← hm]
    simp only [List.mem_append, List.mem_cons]
    tauto

end ssdb

namespace ssdb

/-- C7 (amended).  For a free-space map whose intervals are separated and
end within the u32 space (`Wf`), and any `count` with `1 ≤ count < 2^32`:
on the empty map (the "entire 2^32 space free" sentinel) `get_free`
initializes the map to the remainder `[count, 2^32)` and returns `0`; on a
nonempty map with no sufficient interval it signals allocation failure
(`std::bad_alloc`); and whenever some interval has length `≥ count`, it
picks an interval of the smallest sufficient length (best-fit), removes
exactly `count` blocks from its front — the resulting free set is the old
one minus `[pos, pos + count)` — and never leaves the map empty (a `(0,0)`
dummy is inserted when the removal would empty it). -/
theorem getFree_spec {m : Free} {c : Nat} (hc : 1 ≤ c) (hcu : c < two32) (hwf : Wf m) :
    (m = [] → getFree m c = some (0, [(c, two32 - c)]))
    ∧ ((m ≠ [] ∧ ∀ e ∈ m, e.2 < c) → getFree m c = none)
    ∧ (∀ e0 ∈ m, c ≤ e0.2 →
        ∃ pos len m', getFree m c = some (pos, m')
          ∧ (pos, len) ∈ m ∧ c ≤ len
          ∧ (∀ e ∈ m, c ≤ e.2 → len ≤ e.2)
          ∧ m' ≠ []
          ∧ (∀ x, memFree m' x ↔ (memFree m x ∧ ¬(pos ≤ x ∧ x < pos + c)))) := by
  have h32 : two32 = 4294967296 := rfl
  refine ⟨?_, ?_, ?_⟩
  · rintro rfl
    have hmod : (two32 - c) % two32 = two32 - c := Nat.mod_eq_of_lt (by omega)
    unfold getFree
    rw [show bestFit ([] : Free) c = none from rfl]
    simp only [List.isEmpty_nil, if_true]
    rw [if_neg (by omega : ¬ c = 0), hmod]
  · rintro ⟨hne, hall⟩
    unfold getFree
    rw [bestFit_eq_none hall]
    simp only []
    rw [if_neg (by simpa [List.isEmpty_iff] using hne)]
  · intro e0 he0 hce0
    rcases hb : bestFit m c with - | pl
    · exact absurd (bestFit_none hb e0 he0) (by omega)
    obtain ⟨pos, len⟩ := pl
    obtain ⟨hmem, hclen⟩ := bestFit_mem hb
    have hmin := bestFit_min (pos, len) hb
    have hnd := wf_keys_sorted hwf
    have hrm := mem_removeKey_of_mem hnd hmem
    have hlen32 : pos + len ≤ two32 - 1 := hwf.2 _ hmem
    have huniq : ∀ e ∈ m, e ≠ (pos, len) → ∀ x, pos ≤ x → x < pos + len →
        ¬(e.1 ≤ x ∧ x < e.1 + e.2) := by
      intro e he hne x hx1 hx2 hex
      rcases wf_semiSep hwf hmem he (fun hh => hne hh.symm) with hs | hs
      · have := hs.2.1
        omega
      · have := hs.2.1
        omega
    by_cases hdiff : len - c ≠ 0
    · have hclt : c < len := by omega
      have hfresh : ∀ e ∈ removeKey m pos, e.1 ≠ pos + c := by
        intro e he heq
        obtain ⟨hem, hene⟩ := (hrm e).mp he
        rcases wf_semiSep hwf hmem hem (fun hh => hene hh.symm) with hs | hs
        · have := hs.2.1
          omega
        · have := hs.1
          omega
      have hg : getFree m c = some (pos, sortedEmplace (removeKey m pos) (pos + c) (len - c)) := by
        unfold getFree
        rw [hb]
        simp only []
        rw [if_pos hdiff]
      refine ⟨pos, len, _, hg, hmem, hclen, hmin, ?_, ?_⟩
      · intro hnil
        have := (mem_sortedEmplace hfresh (pos + c, len - c)).mpr (Or.inr rfl)
        rw [hnil] at this
        simp at this
      · intro x
        simp only [memFree]
        constructor
        · rintro ⟨e, he, hex⟩
          rcases (mem_sortedEmplace hfresh e).mp he with he' | rfl
          · obtain ⟨hem, hene⟩ := (hrm e).mp he'
            refine ⟨⟨e, hem, hex⟩, ?_⟩
            rintro ⟨hx1, hx2⟩
            exact huniq e hem hene x hx1 (by omega) hex
          · simp only at hex
            refine ⟨⟨(pos, len), hmem, ?_⟩, ?_⟩
            · constructor <;> omega
            · omega
        · rintro ⟨⟨e, hem, hex⟩, hnot⟩
          by_cases hene : e = (pos, len)
          · subst hene
            simp only at hex
            refine ⟨(pos + c, len - c), (mem_sortedEmplace hfresh _).mpr (Or.inr rfl), ?_⟩
            simp only
            constructor <;> omega
          · exact ⟨e, (mem_sortedEmplace hfresh e).mpr (Or.inl ((hrm e).mpr ⟨hem, hene⟩)), hex⟩
    · have hlc : len = c := by omega
      by_cases hemp : (removeKey m pos).isEmpty
      · have hg : getFree m c = some (pos, [(0, 0)]) := by
          unfold getFree
          rw [hb]
          simp only []
          rw [if_neg hdiff, if_pos hemp]
        refine ⟨pos, len, _, hg, hmem, hclen, hmin, by simp, ?_⟩
        intro x
        simp only [memFree]
        constructor
        · rintro ⟨e, he, hex⟩
          simp only [List.mem_singleton] at he
          subst he
          simp only at hex
          omega
        · rintro ⟨⟨e, hem, hex⟩, hnot⟩
          exfalso
          by_cases hene : e = (pos, len)
          · subst hene
            simp only at hex
            exact hnot ⟨hex.1, by omega⟩
          · have hmm : e ∈ removeKey m pos := (hrm e).mpr ⟨hem, hene⟩
            rw [List.isEmpty_iff] at hemp
            rw [hemp] at hmm
            simp at hmm
      · have hg : getFree m c = some (pos, removeKey m pos) := by
          unfold getFree
          rw [hb]
          simp only []
          rw [if_neg hdiff, if_neg hemp]
        refine ⟨pos, len, _, hg, hmem, hclen, hmin, ?_, ?_⟩
        · intro hnil
          rw [List.isEmpty_iff] at hemp
          exact hemp hnil
        · intro x
          simp only [memFree]
          constructor
          · rintro ⟨e, he, hex⟩
            obtain ⟨hem, hene⟩ := (hrm e).mp he
            refine ⟨⟨e, hem, hex⟩, ?_⟩
            rintro ⟨hx1, hx2⟩
            exact huniq e hem hene x hx1 (by omega) hex
          · rintro ⟨⟨e, hem, hex⟩, hnot⟩
            by_cases hene : e = (pos, len)
            · subst hene
              simp only at hex
              exact absurd ⟨hex.1, by omega⟩ hnot
            · exact ⟨e, (hrm e).mpr ⟨hem, hene⟩, hex⟩

end ssdb

namespace ssdb

/-- Witness for `ssdb.getFree_spec` at the concrete map `[(3, 2), (10, 5)]`
with `count = 2` (best fit is the exact-length interval at 3). -/
theorem getFree_spec_witness :
    ∃ pos len m', getFree [(3, 2), (10, 5)] 2 = some (pos, m')
      ∧ (pos, len) ∈ [(3, 2), (10, 5)] ∧ 2 ≤ len
      ∧ (∀ e ∈ [(3, 2), (10, 5)], 2 ≤ e.2 → len ≤ e.2)
      ∧ m' ≠ []
      ∧ (∀ x, memFree m' x ↔ (memFree [(3, 2), (10, 5)] x ∧ ¬(pos ≤ x ∧ x < pos + 2))) :=
  (getFree_spec (by decide) (by decide)
    ⟨by simp [List.chain'_cons', Sep, two32], by decide⟩).2.2 (3, 2) (by simp) (by decide)

/-- C7 counterexample.  The map `[(2, 2^32 − 2), (2^32 − 1, 0)]` is a state
the program itself reaches (first write seeds `(1, 2^32 − 1)` via the
empty-map branch of `get_free`, the terminator allocation splits it to
`(2, 2^32 − 2)`, and freeing the `m_lastf = 2^32 − 1` sentinel inserts the
clamped zero-length entry).  Calling `get_free(2^32 − 3)` picks the
interval at 2, but the split fragment `(2^32 − 1, 1)` is silently dropped:
`emplace` finds the zero-length entry already stored under key `2^32 − 1`
and keeps it.  Block `2^32 − 1` was free, lies outside the removed front
range `[2, 2^32 − 1)`, yet is no longer free afterwards — refuting
"removes exactly `count` blocks from its front" as stated for every map
state. -/
theorem getFree_fragment_lost_cex :
    getFree [(2, two32 - 2), (two32 - 1, 0)] (two32 - 3) = some (2, [(two32 - 1, 0)])
    ∧ memFree [(2, two32 - 2), (two32 - 1, 0)] (two32 - 1)
    ∧ ¬(2 ≤ two32 - 1 ∧ two32 - 1 < 2 + (two32 - 3))
    ∧ ¬ memFree [(two32 - 1, 0)] (two32 - 1) := by decide

end ssdb

namespace sstl

/-- A value of one of the C++ types the encoder of `sstl.hpp` supports.
Each constructor stands for one instantiation of the `sstl::traverse`
templates:

* `vu8` / `vu32` / `vu64` — arithmetic types of size 1 / 4 / 8
  (`traverse<Type, T, is_simple<T>::simple>`);
* `vbool` — `bool` (`traverse<Type, bool>`);
* `vbytes` — a simple container with 1-byte elements, e.g. `std::string`
  or `std::vector<std::uint8_t>` (`traverse_container_simple`, byte-array
  branch);
* `varr32` — `std::array<std::uint32_t, n>`
  (`traverse_container_simple`, wide-element branch; `sizeof` of the
  container is modelled as `4 * n`, its value on every real ABI);
* `vdoc` — a class with a `serialize` method listing its fields in order
  (the generic `traverse` document branch);
* `vset64` — `std::set<std::uint64_t>` (contents listed in key order);
* `vmap64` — `std::map<std::uint64_t, T>` (key/value interleaved);
* `vuptr` — `std::unique_ptr` (written as a null value). -/
inductive SVal where
  | vu8 (n : Nat)
  | vu32 (n : Nat)
  | vu64 (n : Nat)
  | vbool (b : Bool)
  | vbytes (l : List Nat)
  | varr32 (l : List Nat)
  | vdoc (fields : List SVal)
  | vset64 (keys : List Nat)
  | vmap64 (entries : List (Nat × SVal))
  | vuptr

/-- Big-endian bytes of `n` in `w` bytes (the `std::be_t` store). -/
def beBytes : Nat → Nat → List Nat
  | 0, _ => []
  | w + 1, n => (n / 256 ^ w) % 256 :: beBytes w n

/-- Payload bytes of `size_type`: 1 byte below 256, else 4 bytes up to
`UINT32_MAX`, else 8 (`context_data::operator+=(const size_type&)`). -/
def sizeBytes (n : Nat) : List Nat :=
  if n < 256 then [n] else if n < 2 ^ 32 then beBytes 4 n else beBytes 8 n

/-- `size_type::type_sized`: the sized-buffer tag for a given size. -/
def sizedTag (n : Nat) : Nat :=
  if n < 256 then 5 else if n < 2 ^ 32 then 7 else 9

/-- `size_type::type_value`: the value tag for a given size. -/
def valueTag (n : Nat) : Nat :=
  if n < 256 then 4 else if n < 2 ^ 32 then 6 else 8

/-- Writing-mode output of `traverse<Type, size_type>`: `0x02` for zero,
else the value tag followed by the size bytes. -/
def sizeTypeWrite (n : Nat) : List Nat :=
  if n = 0 then [2] else valueTag n :: sizeBytes n

/-- `context_data::write_sized` on a byte buffer: `0x02` for an empty
buffer, else the sized tag, the size bytes and the data. -/
def writeSized (data : List Nat) : List Nat :=
  if data.length = 0 then [2] else sizedTag data.length :: (sizeBytes data.length ++ data)

/-- Writing-mode output of the simple-scalar traverse at `u64`
(zero-value optimization `0x02`, else tag `0x08` and 8 big-endian
bytes). -/
def u64Write (n : Nat) : List Nat :=
  if n = 0 then [2] else 8 :: beBytes 8 n

mutual

/-- Writing-mode emission (`context_type::writing`) of the encoder, as the
list of bytes the cursor writes, following the branch structure of
`sstl.hpp` case by case.  Note the wide-element simple-container branch
(`varr32`): the source computes the declared byte size as
`arg.size() * sizeof(T)` where `T` is the *container* type, so an
`std::array<std::uint32_t, n>` declares `n * (4 * n)` bytes while emitting
only `4 * n` bytes of element data. -/
def writeBytes : SVal → List Nat
  | .vu8 n => if n = 0 then [2] else [4, n % 256]
  | .vu32 n => if n = 0 then [2] else 6 :: beBytes 4 n
  | .vu64 n => u64Write n
  | .vbool b => if b then [3] else [2]
  | .vbytes l => if l.length = 0 then [2] else writeSized l
  | .varr32 l =>
    if l.length = 0 then [2]
    else sizedTag (l.length * (4 * l.length)) ::
      (sizeBytes (l.length * (4 * l.length)) ++ l.flatMap (beBytes 4))
  | .vdoc fields => 1 :: (writeList fields ++ [0])
  | .vset64 keys =>
    if keys.length = 0 then [2]
    else 1 :: ((sizeTypeWrite keys.length ++ keys.flatMap u64Write) ++ [0])
  | .vmap64 entries =>
    if entries.length = 0 then [2]
    else 1 :: ((sizeTypeWrite entries.length ++ writePairs entries) ++ [0])
  | .vuptr => [0x1f]

/-- Writing-mode emission of a document's field list, in order. -/
def writeList : List SVal → List Nat
  | [] => []
  | v :: rest => writeBytes v ++ writeList rest

/-- Writing-mode emission of a map's interleaved key/value list. -/
def writePairs : List (Nat × SVal) → List Nat
  | [] => []
  | (k, v) :: rest => u64Write k ++ writeBytes v ++ writePairs rest

end

/-- Probing-mode (`context_type::probing`) size of `size_type` payloads. -/
def sizeBytesLen (n : Nat) : Nat :=
  if n < 256 then 1 else if n < 2 ^ 32 then 4 else 8

/-- Probing-mode count of `traverse<Type, size_type>`. -/
def sizeTypeProbe (n : Nat) : Nat :=
  if n = 0 then 1 else 1 + sizeBytesLen n

/-- Probing-mode count of `context_data::write_sized` on `len` bytes. -/
def probeSized (len : Nat) : Nat :=
  if len = 0 then 1 else 1 + sizeBytesLen len + len

/-- Probing-mode count of the simple-scalar traverse at `u64`. -/
def u64Probe (n : Nat) : Nat :=
  if n = 0 then 1 else 1 + 8

mutual

/-- Probing-mode (`context_type::probing`) byte count of the encoder: the
same branch structure as writing mode, accumulating `psize` instead of
copying bytes (`context_data::write` with a null `begin`). -/
def probeSize : SVal → Nat
  | .vu8 n => if n = 0 then 1 else 1 + 1
  | .vu32 n => if n = 0 then 1 else 1 + 4
  | .vu64 n => u64Probe n
  | .vbool _ => 1
  | .vbytes l => if l.length = 0 then 1 else probeSized l.length
  | .varr32 l =>
    if l.length = 0 then 1
    else 1 + sizeBytesLen (l.length * (4 * l.length)) + 4 * l.length
  | .vdoc fields => 1 + (probeList fields + 1)
  | .vset64 keys =>
    if keys.length = 0 then 1
    else 1 + ((sizeTypeProbe keys.length + (keys.map u64Probe).sum) + 1)
  | .vmap64 entries =>
    if entries.length = 0 then 1
    else 1 + ((sizeTypeProbe entries.length + probePairs entries) + 1)
  | .vuptr => 1

/-- Probing-mode count of a document's field list. -/
def probeList : List SVal → Nat
  | [] => 0
  | v :: rest => probeSize v + probeList rest

/-- Probing-mode count of a map's interleaved key/value list. -/
def probePairs : List (Nat × SVal) → Nat
  | [] => 0
  | (k, v) :: rest => u64Probe k + probeSize v + probePairs rest

end

/-- Model of `sstl::append`: probe first; if the probed size is zero,
return without resizing; otherwise grow the buffer and run writing mode
into the reserved region. -/
def append (out : List Nat) (v : SVal) : List Nat :=
  if probeSize v = 0 then out else out ++ writeBytes v

end sstl

namespace sstl

theorem beBytes_length (w n : Nat) : (beBytes w n).length = w := by
  induction w generalizing n with
  | zero => rfl
  | succ w ih => simp [beBytes, ih]

theorem sizeBytes_length (n : Nat) : (sizeBytes n).length = sizeBytesLen n := by
  unfold sizeBytes sizeBytesLen
  split
  · rfl
  · split <;> simp [beBytes_length]

theorem u64Write_length (n : Nat) : (u64Write n).length = u64Probe n := by
  unfold u64Write u64Probe
  split <;> simp [beBytes_length]

theorem writeSized_length (data : List Nat) : (writeSized data).length = probeSized data.length := by
  unfold writeSized probeSized
  split <;> simp_all [sizeBytes_length] <;> omega

theorem sizeTypeWrite_length (n : Nat) : (sizeTypeWrite n).length = sizeTypeProbe n := by
  unfold sizeTypeWrite sizeTypeProbe
  split <;> simp [sizeBytes_length] <;> omega

theorem flatMap_beBytes4_length (l : List Nat) : (l.flatMap (beBytes 4)).length = 4 * l.length := by
  induction l with
  | nil => rfl
  | cons a rest ih =>
    rw [List.flatMap_cons, List.length_append, ih, beBytes_length]
    simp
    omega

theorem flatMap_u64Write_length (keys : List Nat) :
    (keys.flatMap u64Write).length = (keys.map u64Probe).sum := by
  induction keys with
  | nil => rfl
  | cons a rest ih =>
    rw [List.flatMap_cons, List.length_append, ih, u64Write_length, List.map_cons, List.sum_cons]

mutual

theorem probeSize_eq_length : ∀ v : SVal, probeSize v = (writeBytes v).length
  | .vu8 n => by
    rw [probeSize, writeBytes]
    split <;> simp
  | .vu32 n => by
    rw [probeSize, writeBytes]
    split <;> simp [beBytes_length]
  | .vu64 n => by
    rw [probeSize, writeBytes, u64Write_length]
  | .vbool b => by
    rw [probeSize, writeBytes]
    split <;> rfl
  | .vbytes l => by
    rw [probeSize, writeBytes]
    split <;> simp_all [writeSized_length, probeSized]
  | .varr32 l => by
    rw [probeSize, writeBytes]
    split
    · rfl
    · simp only [List.length_cons, List.length_append, sizeBytes_length, flatMap_beBytes4_length]
      omega
  | .vdoc fields => by
    rw [probeSize, writeBytes, probeList_eq_length fields]
    simp only [List.length_cons, List.length_append, List.length_singleton, List.length_nil]
    omega
  | .vset64 keys => by
    rw [probeSize, writeBytes]
    split
    · rfl
    · simp only [List.length_cons, List.length_append, sizeTypeWrite_length,
        List.length_singleton, List.length_nil, flatMap_u64Write_length]
      omega
  | .vmap64 entries => by
    rw [probeSize, writeBytes]
    split
    · rfl
    · rw [probePairs_eq_length entries]
      simp only [List.length_cons, List.length_append, sizeTypeWrite_length,
        List.length_singleton, List.length_nil]
      omega
  | .vuptr => rfl

theorem probeList_eq_length : ∀ l : List SVal, probeList l = (writeList l).length
  | [] => rfl
  | v :: rest => by
    rw [probeList, writeList, probeSize_eq_length v, probeList_eq_length rest]
    simp

theorem probePairs_eq_length : ∀ l : List (Nat × SVal), probePairs l = (writePairs l).length
  | [] => rfl
  | (k, v) :: rest => by
    rw [probePairs, writePairs, probeSize_eq_length v, probePairs_eq_length rest]
    simp [u64Write_length]
    omega

end

/-- C10.  For every supported value, the byte count accumulated by the
encoder's probing mode equals exactly the number of bytes emitted for the
same value by writing mode; hence `sstl::append` grows the output buffer
by exactly the emitted byte string and the write cursor ends exactly at
the end of the region reserved from the probe (it never overruns it). -/
theorem probe_write_agree (v : SVal) (out : List Nat) :
    probeSize v = (writeBytes v).length
    ∧ append out v = out ++ writeBytes v
    ∧ (append out v).length = out.length + probeSize v := by
  have h := probeSize_eq_length v
  refine ⟨h, ?_, ?_⟩
  · unfold append
    split
    · rename_i h0
      rw [h0] at h
      have : writeBytes v = [] := by
        cases hw : writeBytes v with
        | nil => rfl
        | cons a rest => rw [hw] at h; simp at h
      rw [this, List.append_nil]
    · rfl
  · unfold append
    split
    · rename_i h0
      rw [h0, Nat.add_zero]
    · simp [h]

end sstl

namespace sstl

/-- Model of `context_data::read`: if at least `k` bytes remain, consume
them; otherwise the cursor jumps to the end (`begin = end`) and the
output stays uninitialized (uninitialized reads are modelled as zero
bytes). -/
def rdTake (k : Nat) (st : List Nat) : List Nat × List Nat :=
  if k ≤ st.length then (st.take k, st.drop k) else (List.replicate k 0, [])

/-- Big-endian load of a byte list (the `std::be_t` load). -/
def beVal (bytes : List Nat) : Nat :=
  bytes.foldl (fun acc b => acc * 256 + b) 0

/-- Model of `context_data::read_size`: read the 1 / 4 / 8-byte size
matching the tag, then check it against the remaining byte count; on any
failure the cursor aborts to the end and `0` is returned. -/
def readSize (tag : Nat) (st : List Nat) : Nat × List Nat :=
  if tag = 4 ∨ tag = 5 then
    if beVal (rdTake 1 st).1 ≤ (rdTake 1 st).2.length then
      (beVal (rdTake 1 st).1, (rdTake 1 st).2)
    else (0, [])
  else if tag = 6 ∨ tag = 7 then
    if beVal (rdTake 4 st).1 ≤ (rdTake 4 st).2.length then
      (beVal (rdTake 4 st).1, (rdTake 4 st).2)
    else (0, [])
  else if tag = 8 ∨ tag = 9 then
    if beVal (rdTake 8 st).1 ≤ (rdTake 8 st).2.length then
      (beVal (rdTake 8 st).1, (rdTake 8 st).2)
    else (0, [])
  else (0, [])

theorem rdTake_length_le (k : Nat) (st : List Nat) : (rdTake k st).2.length ≤ st.length := by
  unfold rdTake
  split <;> simp

theorem readSize_length_le (tag : Nat) (st : List Nat) : (readSize tag st).2.length ≤ st.length := by
  unfold readSize
  repeat' split
  all_goals simp [rdTake_length_le]

/-- Model of `context_data::skip`: skip the current document `level`
times, or a single value when `level = 0`.  Each loop iteration consumes
the tag byte it switched on; reserved tags abort to the end of the
input. -/
def skipVal (level : Nat) (st : List Nat) : List Nat :=
  match st with
  | [] => []
  | b :: rest =>
    if level = 0 ∧ b = 0 then b :: rest
    else if b = 0 then
      if level - 1 = 0 then rest else skipVal (level - 1) rest
    else if b = 1 then
      skipVal (level + 1) rest
    else if b = 0x1f ∨ b = 2 ∨ b = 3 then
      if level = 0 then rest else skipVal level rest
    else if b = 4 then
      if level = 0 then (rdTake 1 rest).2 else skipVal level (rdTake 1 rest).2
    else if b = 6 then
      if level = 0 then (rdTake 4 rest).2 else skipVal level (rdTake 4 rest).2
    else if b = 8 then
      if level = 0 then (rdTake 8 rest).2 else skipVal level (rdTake 8 rest).2
    else if b = 5 ∨ b = 7 ∨ b = 9 then
      if level = 0 then ((readSize b rest).2.drop (readSize b rest).1)
      else skipVal level ((readSize b rest).2.drop (readSize b rest).1)
    else if b < 0x1f then
      []
    else
      skipVal level rest
  termination_by st.length
  decreasing_by
  all_goals
    simp only [List.length_cons]
    have hA := rdTake_length_le 1 rest
    have hB := rdTake_length_le 4 rest
    have hC := rdTake_length_le 8 rest
    have hD := readSize_length_le b rest
    have hE := List.length_drop ((readSize b rest).1) ((readSize b rest).2)
    omega

theorem skipVal_length_le : ∀ (level : Nat) (st : List Nat), (skipVal level st).length ≤ st.length
  | level, [] => by
    rw [skipVal]
  | level, b :: rest => by
    rw [skipVal]
    by_cases h1 : level = 0 ∧ b = 0
    · rw [if_pos h1]
    · rw [if_neg h1]
      by_cases h2 : b = 0
      · rw [if_pos h2]
        split
        · simp
        · have := skipVal_length_le (level - 1) rest
          simp only [List.length_cons]
          omega
      · rw [if_neg h2]
        by_cases h3 : b = 1
        · rw [if_pos h3]
          have := skipVal_length_le (level + 1) rest
          simp only [List.length_cons]
          omega
        · rw [if_neg h3]
          by_cases h4 : b = 0x1f ∨ b = 2 ∨ b = 3
          · rw [if_pos h4]
            split
            · simp
            · have := skipVal_length_le level rest
              simp only [List.length_cons]
              omega
          · rw [if_neg h4]
            by_cases h5 : b = 4
            · rw [if_pos h5]
              have hr := rdTake_length_le 1 rest
              split
              · simp only [List.length_cons]
                omega
              · have := skipVal_length_le level (rdTake 1 rest).2
                simp only [List.length_cons]
                omega
            · rw [if_neg h5]
              by_cases h6 : b = 6
              · rw [if_pos h6]
                have hr := rdTake_length_le 4 rest
                split
                · simp only [List.length_cons]
                  omega
                · have := skipVal_length_le level (rdTake 4 rest).2
                  simp only [List.length_cons]
                  omega
              · rw [if_neg h6]
                by_cases h7 : b = 8
                · rw [if_pos h7]
                  have hr := rdTake_length_le 8 rest
                  split
                  · simp only [List.length_cons]
                    omega
                  · have := skipVal_length_le level (rdTake 8 rest).2
                    simp only [List.length_cons]
                    omega
                · rw [if_neg h7]
                  by_cases h8 : b = 5 ∨ b = 7 ∨ b = 9
                  · rw [if_pos h8]
                    have hr := readSize_length_le b rest
                    have hd := List.length_drop ((readSize b rest).1) ((readSize b rest).2)
                    split
                    · simp only [List.length_cons]
                      omega
                    · have := skipVal_length_le level ((readSize b rest).2.drop (readSize b rest).1)
                      simp only [List.length_cons]
                      omega
                  · rw [if_neg h8]
                    by_cases h9 : b < 0x1f
                    · rw [if_pos h9]
                      simp
                    · rw [if_neg h9]
                      have := skipVal_length_le level rest
                      simp only [List.length_cons]
                      omega
  termination_by level st => st.length
  decreasing_by
  all_goals
    simp only [List.length_cons]
    have hA := rdTake_length_le 1 rest
    have hB := rdTake_length_le 4 rest
    have hC := rdTake_length_le 8 rest
    have hD := readSize_length_le b rest
    have hE := List.length_drop ((readSize b rest).1) ((readSize b rest).2)
    omega

end sstl

namespace sstl

theorem skipVal_cons_lt (level : Nat) (b : Nat) (rest : List Nat) (h : ¬(level = 0 ∧ b = 0)) :
    (skipVal level (b :: rest)).length ≤ rest.length := by
  rw [skipVal]
  rw [if_neg h]
  have hA := rdTake_length_le 1 rest
  have hB := rdTake_length_le 4 rest
  have hC := rdTake_length_le 8 rest
  have hD := readSize_length_le b rest
  have hE := List.length_drop ((readSize b rest).1) ((readSize b rest).2)
  have h1 := skipVal_length_le (level - 1) rest
  have h2 := skipVal_length_le (level + 1) rest
  have h3 := skipVal_length_le level rest
  have h4 := skipVal_length_le level (rdTake 1 rest).2
  have h5 := skipVal_length_le level (rdTake 4 rest).2
  have h6 := skipVal_length_le level (rdTake 8 rest).2
  have h7 := skipVal_length_le level ((readSize b rest).2.drop (readSize b rest).1)
  repeat' split
  all_goals simp_all
  all_goals omega

/-- Model of `context_data::drop`: skip values until the current
document's terminator (or end of input). -/
def dropVals (st : List Nat) : List Nat :=
  match st with
  | [] => []
  | b :: rest =>
    if b = 0 then b :: rest
    else dropVals (skipVal 0 (b :: rest))
  termination_by st.length
  decreasing_by
    have := skipVal_cons_lt 0 b rest (by simp_all)
    simp only [List.length_cons]
    omega

/-- Reading-mode traverse of a `u64` scalar
(`traverse<Type, T, is_simple<T>::simple>` with `sizeof(T) = 8`): `0x02`
restores the zero value, the matching tag `0x08` loads 8 big-endian
bytes, null is skipped, and anything else drops the rest of the current
document. -/
def u64Read (arg : Nat) (st : List Nat) : Nat × List Nat :=
  match st with
  | [] => (arg, [])
  | b :: rest =>
    if b = 2 then (0, rest)
    else if b = 8 then (beVal (rdTake 8 rest).1, (rdTake 8 rest).2)
    else if b = 0x1f then (arg, rest)
    else (arg, dropVals (b :: rest))

/-- Reading-mode traverse of a byte-element simple container
(`traverse_container_simple`, byte branch): `0x02` yields the empty
container, a sized tag resizes to the declared size and copies that many
bytes, null is skipped, anything else drops the document. -/
def bytesRead (arg : List Nat) (st : List Nat) : List Nat × List Nat :=
  match st with
  | [] => (arg, [])
  | b :: rest =>
    if b = 2 then ([], rest)
    else if b = 5 ∨ b = 7 ∨ b = 9 then
      ((readSize b rest).2.take (readSize b rest).1, (readSize b rest).2.drop (readSize b rest).1)
    else if b = 0x1f then (arg, rest)
    else (arg, dropVals (b :: rest))

/-- Element loop of the wide-element simple-container read: the source
resizes the `std::array` to the *byte* count `sz` (a fill for arrays),
then reads one 4-byte element per array slot while the cursor is before
`begin + 4 * sz`; once a read runs past the end the cursor sticks there
and the remaining slots keep their filled (zero) values. -/
def arr32Elems (n sz : Nat) (st : List Nat) : List Nat :=
  (List.range n).map fun i =>
    if i < sz ∧ 4 * (i + 1) ≤ st.length then beVal ((st.drop (4 * i)).take 4) else 0

/-- Reading-mode traverse of `std::array<std::uint32_t, n>`
(`traverse_container_simple`, wide-element branch): note that the
declared size read from the stream is interpreted as an *element* count
by `resize` and as a count of 4-byte reads (`last = begin +
sizeof(value_type) * size`), while the writer declared
`size() * sizeof(container)` bytes — the asymmetry behind the failed
round trip. -/
def arr32Read (n : Nat) (arg : List Nat) (st : List Nat) : List Nat × List Nat :=
  match st with
  | [] => (arg, [])
  | b :: rest =>
    if b = 2 then (List.replicate n 0, rest)
    else if b = 5 ∨ b = 7 ∨ b = 9 then
      (arr32Elems n (readSize b rest).1 (readSize b rest).2,
        (readSize b rest).2.drop (4 * (readSize b rest).1))
    else if b = 0x1f then (arg, rest)
    else (arg, dropVals (b :: rest))

/-- C6.  `decode(encode(x)) = x` fails on the code for a simple container
with elements wider than one byte: for `x = std::array<std::uint32_t, 2>{1, 0}`
the writer emits the sized tag `0x05` with declared size
`2 * sizeof(std::array<u32, 2>) = 16`, followed by only 8 element bytes,
so the reader's `read_size` check `remaining() >= size` fails, aborts,
and leaves the zero-filled array: decoding yields `{0, 0} ≠ {1, 0}`. -/
theorem arr32_roundtrip_fails :
    writeBytes (.varr32 [1, 0]) = [5, 16, 0, 0, 0, 1, 0, 0, 0, 0]
    ∧ (arr32Read 2 (List.replicate 2 0) (writeBytes (.varr32 [1, 0]))).1 = [0, 0]
    ∧ (arr32Read 2 (List.replicate 2 0) (writeBytes (.varr32 [1, 0]))).1 ≠ [1, 0] := by
  refine ⟨by decide, ?_, ?_⟩ <;> decide

end sstl

namespace ssdb

/-- In-memory per-entry bookkeeping (`ssdb::control`). -/
structure Control where
  order : Nat
  load_block : Nat
  load_count : Nat
  new_block : Nat
  new_count : Nat
  deriving DecidableEq

/-- `ssdb::null_control`. -/
def nullControl : Control := ⟨0, 0, 0, 0, 0⟩

/-- The accumulator of `ssdb::combined_hash`, modelled in the free
XOR-group generated by the hashed 16-byte messages: the set of
`(order, position)` pairs whose HMAC images have been XOR-ed in an odd
number of times.  `symmDiff` is the XOR; every identity proved here holds
for every concrete HMAC instantiation, since XOR-ing the same image twice
cancels regardless of the function. -/
abbrev Hash := Finset (Nat × Nat)

/-- `ssdb::umap::xor_order`: XOR `HMAC(salt, order_be64 ‖ pos_be64)` into
the accumulator; in the free model, toggle the pair's membership. -/
def xorOrder (h : Hash) (ord pos : Nat) : Hash :=
  symmDiff h {(ord, pos)}

/-- One decrypted `ssdb::block_layout`: the 8-byte big-endian `order` and
`size` words and the 4032-byte `data` area (kept zero-padded to full
length).  `snap` models the first 64 bytes of `data` as they are produced
and consumed through `combined_hash` (`dump` into a terminator,
`memcpy`-into-`last_hash` and `check` on reload): under the free
XOR-group model those bytes are the accumulator value itself.  Record
blocks never have their data prefix read as a hash, so their `snap` is
`∅`. -/
structure BlockLayout where
  order : Nat
  size : Nat
  data : List Nat
  snap : Hash
  deriving DecidableEq

/-- `umap` reads and writes its view with the default container id 0. -/
def readBlk (view : sfs.View BlockLayout) (i : Nat) : Option BlockLayout :=
  sfs.readBlock view i 0

/-- The full `ssdb::umap` state, bundled with its `sfs::view`
(`m_map`, `m_free`, `m_error`, `m_lastf`, `m_order`, `m_flush`, `m_hash`,
`m_data`).  The association list `map` fixes one iteration order of the
`std::unordered_map`. -/
structure Umap (K V : Type) where
  map : List (K × Control × V)
  free : Free
  error : Nat
  lastf : Nat
  order : Nat
  flush : Nat
  hash : Hash
  view : sfs.View BlockLayout

/-- The serializer the `umap<K, T>` template instantiates: `enc` models
`sstl::save` of `ctx(key); ctx(value)`, and `dec` models the reading-mode
traversal of a default-initialized key then value. -/
structure Codec (K V : Type) where
  enc : K → V → List Nat
  dec : List Nat → K × V

/-- First-match lookup in the association list (`m_map.find`). -/
def lookupEntry {K V : Type} [DecidableEq K] :
    List (K × Control × V) → K → Option (Control × V)
  | [], _ => none
  | (k', cv) :: rest, k => if k' = k then some cv else lookupEntry rest k

/-- Replace the entry of an existing key, keeping the position. -/
def setEntry {K V : Type} [DecidableEq K] :
    List (K × Control × V) → K → (Control × V) → List (K × Control × V)
  | [], _, _ => []
  | (k', cv') :: rest, k, cv =>
    if k' = k then (k', cv) :: rest else (k', cv') :: setEntry rest k cv

/-- `ssdb::umap::dirty` on one control: if the entry has an order, XOR out
its contribution (keyed by `new_block` when a written-but-unflushed run
exists, else `load_block`) and clear the order. -/
def dirtyCtrl (c : Control) (h : Hash) : Control × Hash :=
  if c.order ≠ 0 then
    ({ c with order := 0 },
      xorOrder h c.order (if c.new_count ≠ 0 then c.new_block else c.load_block))
  else (c, h)

/-- Record area of block `i` of a run: the corresponding slice of the
encoded byte string, zero-padded to the full 4032 bytes (the source
zero-initializes `sbuf` and `memset`s the tail of the last block). -/
def chunkData (buf : List Nat) (i : Nat) : List Nat :=
  ((buf.drop (i * sfs.data_size)).take sfs.data_size)
    ++ List.replicate (sfs.data_size - min sfs.data_size (buf.length - i * sfs.data_size)) 0

/-- Number of blocks a record of `len` encoded bytes occupies
(`buf.size() / sizeof(data)` rounded up, as in `ssdb::umap::write`). -/
def blockCountOf (len : Nat) : Nat :=
  len / sfs.data_size + (if len % sfs.data_size ≠ 0 then 1 else 0)

/-- The block-emitting loop of `ssdb::umap::write`: write blocks
`start + i` for `i = 0 .. cnt - 1` with header `{order, size = (i = 0 ?
len : 2^64 - 1)}` and the padded data slice; stop at the first failing
`write_block`, reporting success of the whole run.  The first argument is
loop fuel: the index rises by one per iteration and the guard is checked
before every body, so any fuel of at least `cnt - i` (the callers pass
`cnt`, starting at `i = 0`) makes this the exact loop of the source. -/
def writeRunAux (ord : Nat) (buf : List Nat) (start cnt : Nat) :
    Nat → Nat → sfs.View BlockLayout → sfs.View BlockLayout × Bool
  | 0, _, v => (v, true)
  | fuel + 1, i, v =>
    if i < cnt then
      match sfs.writeBlock v (start + i)
        { order := ord
          size := if i = 0 then buf.length else two64 - 1
          data := chunkData buf i
          snap := ∅ } 0 with
      | some v' => writeRunAux ord buf start cnt fuel (i + 1) v'
      | none => (v, false)
    else (v, true)

/-- Run emission starting at block index `start`. -/
def writeRun (v : sfs.View BlockLayout) (start cnt ord : Nat) (buf : List Nat) :
    sfs.View BlockLayout × Bool :=
  writeRunAux ord buf start cnt cnt 0 v

/-- Common tail of `ssdb::umap::write` after the run has been reserved:
XOR in the new contribution, emit the run, and either commit the control
(success) or undo everything, set error bit 64 and roll back the order
counter (failure). -/
def writeEntryCore {K V : Type} [DecidableEq K] (s : Umap K V) (k : K) (val : V)
    (c1 : Control) (h1 : Hash) (ord : Nat) (buf : List Nat) (cnt nb : Nat) (f1 : Free) :
    Umap K V :=
  let h2 := xorOrder h1 ord nb
  let wr := writeRun s.view nb cnt ord buf
  if wr.2 then
    { s with
      map := setEntry s.map k ({ c1 with order := ord, new_block := nb, new_count := cnt }, val)
      free := f1
      hash := h2
      order := ord
      view := wr.1 }
  else
    { s with
      map := setEntry s.map k ({ c1 with order := 0, new_block := 0, new_count := 0 }, val)
      free := addFree f1 nb cnt
      hash := xorOrder h2 ord nb
      error := s.error ||| 64
      order := ord - 1
      view := wr.1 }

/-- Model of `ssdb::umap::write` on the entry of key `k`: encode the
key/value pair, compute the block count, re-dirty, assign the next order,
re-reserve the run when the block count changed (returning the old run to
free space first), then emit.  `none` models the `std::bad_alloc` throw
of `get_free`. -/
def writeEntry {K V : Type} [DecidableEq K] (cd : Codec K V) (s : Umap K V) (k : K) :
    Option (Umap K V) :=
  match lookupEntry s.map k with
  | none => some s
  | some (c, val) =>
    let buf := cd.enc k val
    let cnt := blockCountOf buf.length
    let dc := dirtyCtrl c s.hash
    let ord := s.order + 1
    if dc.1.new_count ≠ cnt then
      match getFree (addFree s.free dc.1.new_block dc.1.new_count) cnt with
      | none => none
      | some (nb, f1) => some (writeEntryCore s k val dc.1 dc.2 ord buf cnt nb f1)
    else
      some (writeEntryCore s k val dc.1 dc.2 ord buf cnt dc.1.new_block s.free)

/-- The "write all dirty entries" loop shared by the writer destructor and
`finalize`: iterate the map (in its iteration order) and `write` every
entry whose control has order 0. -/
def writeDirtyKeys {K V : Type} [DecidableEq K] (cd : Codec K V) :
    List K → Umap K V → Option (Umap K V)
  | [], s => some s
  | k :: ks, s =>
    match lookupEntry s.map k with
    | some (c, _) =>
      if c.order = 0 then
        match writeEntry cd s k with
        | some s' => writeDirtyKeys cd ks s'
        | none => none
      else writeDirtyKeys cd ks s
    | none => writeDirtyKeys cd ks s

/-- Write all dirty entries of the current map. -/
def writeDirty {K V : Type} [DecidableEq K] (cd : Codec K V) (s : Umap K V) :
    Option (Umap K V) :=
  writeDirtyKeys cd (s.map.map Prod.fst) s

/-- A fresh terminator block (`block_layout term{}` with the next order,
size 0 and the accumulator dumped into the data prefix). -/
def mkTerm (ord : Nat) (h : Hash) : BlockLayout :=
  { order := ord, size := 0, data := List.replicate sfs.data_size 0, snap := h }

/-- The free-space/control update loop at the end of `ssdb::umap::finalize`:
for every entry with a written run, return the previously loaded run to
free space and promote `new_*` to `load_*`. -/
def promoteEntries {K V : Type} :
    List (K × Control × V) → Free → List (K × Control × V) × Free
  | [], f => ([], f)
  | (k, c, v) :: rest, f =>
    if c.new_count ≠ 0 then
      let r := promoteEntries rest (addFree f c.load_block c.load_count)
      ((k, { c with load_block := c.new_block, load_count := c.new_count,
                    new_block := 0, new_count := 0 }, v) :: r.1, r.2)
    else
      let r := promoteEntries rest f
      ((k, c, v) :: r.1, r.2)

/-- Terminator emission of `ssdb::umap::finalize`, after the dirty
entries have been written: allocate one block, write the terminator; on
failure restore the free space, set error bit 128 and roll the order
back; on success free the previous terminator, move `m_lastf` and
`m_flush`, and promote the entries.  (`m_data->flush()` is a durability
barrier with no effect on the modelled state.) -/
def finalizeAfterWrites {K V : Type} (s1 : Umap K V) : Option (Umap K V) :=
  match getFree s1.free 1 with
  | none => none
  | some (newPos, f1) =>
    match sfs.writeBlock s1.view newPos (mkTerm (s1.order + 1) s1.hash) 0 with
    | none =>
      some { s1 with error := s1.error ||| 128, free := addFree f1 newPos 1 }
    | some v' =>
      let pr := promoteEntries s1.map (addFree f1 s1.lastf 1)
      some { s1 with
        map := pr.1
        free := pr.2
        lastf := newPos
        order := s1.order + 1
        flush := s1.order + 1
        view := v' }

/-- Model of `ssdb::umap::finalize`. -/
def finalize {K V : Type} [DecidableEq K] (cd : Codec K V) (s : Umap K V) :
    Option (Umap K V) :=
  if s.order ≤ s.flush then some s
  else
    match writeDirty cd s with
    | none => none
    | some s1 => finalizeAfterWrites s1

end ssdb

namespace ssdb

/-- A writer operation: `add k v` is `writer.add(k, v)` (inserts if
absent, marks dirty either way, and keeps the existing value when the key
is already present); `mutate k v` is `writer[k]` followed by assigning
`v` through the returned pointer (a null pointer — missing key — means no
mutation happens). -/
inductive WOp (K V : Type) where
  | add (k : K) (v : V)
  | mutate (k : K) (v : V)

/-- Apply one writer operation to the map state and the writer's
`m_modify` flag. -/
def applyOp {K V : Type} [DecidableEq K] :
    Umap K V × Bool → WOp K V → Umap K V × Bool
  | (s, md), .add k v =>
    match lookupEntry s.map k with
    | some (c, v0) =>
      let dc := dirtyCtrl c s.hash
      ({ s with map := setEntry s.map k (dc.1, v0), hash := dc.2 }, true)
    | none =>
      ({ s with map := s.map ++ [(k, (nullControl, v))] }, true)
  | (s, md), .mutate k v =>
    match lookupEntry s.map k with
    | none => (s, md)
    | some (c, _) =>
      let dc := dirtyCtrl c s.hash
      ({ s with map := setEntry s.map k (dc.1, v), hash := dc.2 }, true)

/-- One guarded writer scope (`umap::write` / `umap::flush`): run the
operations, then on writer destruction write all dirty entries (only if
something was modified), and finalize when the scope was a flushing
one. -/
def session {K V : Type} [DecidableEq K] (cd : Codec K V) (s : Umap K V)
    (ops : List (WOp K V)) (fl : Bool) : Option (Umap K V) :=
  let r := ops.foldl applyOp (s, false)
  match (if r.2 then writeDirty cd r.1 else some r.1) with
  | none => none
  | some s2 => if fl then finalize cd s2 else some s2

/-- The scan state of one `ssdb::umap::reload` pass: the fields the pass
rebuilds, plus `lastHash`, the 64-byte `last_hash` buffer (under the free
XOR-group model, an accumulator value). -/
structure RState (K V : Type) where
  map : List (K × Control × V)
  free : Free
  hash : Hash
  order : Nat
  lastf : Nat
  error : Nat
  lastHash : Hash
  deriving DecidableEq

/-- The continuation-reassembly loop of `ssdb::umap::reload`
(`for (std::uint32_t j = i + 1; size > sizeof(sbuf.data) && j < count; j++, i++)`),
with `hd` the head block index, `d` the number of loop iterations already
run (so the source's `j` is `hd + 1 + d` and its `i` is `hd + d`).  Note
two slips of the source, modelled faithfully: the loop only runs while
*more than one* data block of payload remains, and the body reads block
`i` — the head block again on the first iteration — rather than `j`.
Returns the iterations run, the remaining size, the buffer, and whether
the loop broke with error bit 8.  The first explicit argument is loop
fuel: `d` rises by one per iteration and the guard requires
`hd + 1 + d < count`, so any fuel of at least `count - (hd + 1 + d)` (the
caller passes `count`, starting at `d = 0`) makes this the exact loop of
the source. -/
def innerScan (view : sfs.View BlockLayout) (ord count hd : Nat) :
    Nat → Nat → Nat → List Nat → Nat × Nat × List Nat × Bool
  | 0, d, sz, buf => (d, sz, buf, false)
  | fuel + 1, d, sz, buf =>
    if sfs.data_size < sz ∧ hd + 1 + d < count then
      match readBlk view (hd + d) with
      | some b =>
        if b.order = ord ∧ b.size = two64 - 1 then
          innerScan view ord count hd fuel (d + 1) (sz - min sz sfs.data_size)
            (buf ++ b.data.take (min sz sfs.data_size))
        else (d, sz, buf, true)
      | none => (d, sz, buf, true)
    else (d, sz, buf, false)

/-- One iteration step: classify block `i` and update the scan state,
returning also the number of continuation blocks consumed (the
continuation loop advances the outer index by that much, so the next
index visited is `i + consumed + 1`).  Mirrors the body of the scan loop
of `ssdb::umap::reload` branch by branch. -/
def scanStep {K V : Type} [DecidableEq K] (dec : List Nat → K × V)
    (view : sfs.View BlockLayout) (flush count i : Nat) (st : RState K V) :
    Nat × RState K V :=
  match readBlk view i with
  | none =>
    (0, { st with error := st.error ||| 1, free := addFree st.free i 1 })
  | some b =>
    if b.order = 0 ∨ 2 ^ 63 ≤ b.order then
      (0, { st with error := st.error ||| 2, free := addFree st.free i 1 })
    else if 2 ^ 31 ≤ b.size then
      let st1 := if b.size ≠ two64 - 1 then { st with error := st.error ||| 2 } else st
      (0, { st1 with free := addFree st1.free i 1 })
    else
      let st1 := if flush ≠ two64 - 1 ∧ b.order > st.order then { st with order := b.order } else st
      if b.order > flush then
        (0, { st1 with error := st1.error ||| 4, free := addFree st1.free i 1 })
      else if b.size = 0 then
        if flush = two64 - 1 ∧ b.order > st1.order then
          (0, { st1 with free := addFree st1.free st1.lastf 1, lastHash := b.snap, order := b.order, lastf := i })
        else if flush = b.order then
          (0, { st1 with lastHash := b.snap, lastf := i })
        else
          (0, { st1 with free := addFree st1.free i 1 })
      else
        let buf0 := b.data.take (min b.size sfs.data_size)
        let sz1 := b.size - min b.size sfs.data_size
        let inner := innerScan view b.order count i count 0 sz1 buf0
        let d := inner.1
        let sz2 := inner.2.1
        let buf2 := inner.2.2.1
        let broke := inner.2.2.2
        let stB := if broke then
            { st1 with error := st1.error ||| 8, free := addFree st1.free i (d + 1) }
          else st1
        if sz2 ≠ 0 then
          (d, { stB with error := stB.error ||| 16 })
        else
          let kv := dec buf2
          match lookupEntry stB.map kv.1 with
          | none =>
            (d, { stB with
              map := stB.map ++ [(kv.1,
                ({ nullControl with order := b.order, load_block := i, load_count := d + 1 }, kv.2))]
              hash := xorOrder stB.hash b.order i })
          | some (c, _) =>
            if c.order < b.order then
              let st2 := if c.order ≠ 0 then
                  { stB with hash := xorOrder stB.hash c.order c.load_block,
                             free := addFree stB.free c.load_block c.load_count }
                else stB
              (d, { st2 with
                map := setEntry st2.map kv.1
                  ({ c with order := b.order, load_block := i, load_count := d + 1 }, kv.2)
                hash := xorOrder st2.hash b.order i })
            else
              (d, { stB with free := addFree stB.free i (d + 1) })

/-- The block scan loop of one `ssdb::umap::reload` pass.  The first
explicit argument is loop fuel: the index rises by at least one per
iteration and the guard is `i < count`, so any fuel of at least
`count - i` (the caller passes `count`, starting at `i = 0`) makes this
the exact loop of the source. -/
def scanBlocks {K V : Type} [DecidableEq K] (dec : List Nat → K × V)
    (view : sfs.View BlockLayout) (flush count : Nat) :
    Nat → Nat → RState K V → RState K V
  | 0, _, st => st
  | fuel + 1, i, st =>
    if i < count then
      let r := scanStep dec view flush count i st
      scanBlocks dec view flush count fuel (i + r.1 + 1) r.2
    else st

/-- The reset-and-scan body of one `ssdb::umap::reload` call: clear the
map, free space, hash, order and terminator trackers, seed the free space
with `add_free(count, 0 - count)` (u32 arithmetic), and scan all
blocks.  `m_error` accumulates across passes. -/
def reloadPass {K V : Type} [DecidableEq K] (dec : List Nat → K × V)
    (view : sfs.View BlockLayout) (flush err0 : Nat) : RState K V :=
  let count := view.blocks.length
  scanBlocks dec view flush count count 0
    { map := [], free := addFree [] count ((two32 - count) % two32), hash := ∅,
      order := 0, lastf := two32 - 1, error := err0, lastHash := ∅ }

/-- The three-pass driver encoded by the recursive `reload` calls and the
`m_flush` sentinel transitions: an optimistic pass with `m_flush = -1`;
on a combined-hash mismatch a rollback pass with `m_flush` at the best
terminator's order; on a second mismatch a salvage pass with
`m_flush = -2`, which sets error bit 32 and leaves `m_flush = 0`.
Returns the final scan state and the final `m_flush` value. -/
def reload3 {K V : Type} [DecidableEq K] (dec : List Nat → K × V)
    (view : sfs.View BlockLayout) (err0 : Nat) : RState K V × Nat :=
  let p1 := reloadPass (K := K) (V := V) dec view (two64 - 1) err0
  if p1.hash = p1.lastHash then (p1, p1.order)
  else
    let p2 := reloadPass (K := K) (V := V) dec view p1.order p1.error
    if p2.hash = p2.lastHash then (p2, p2.order)
    else
      let p3 := reloadPass (K := K) (V := V) dec view (two64 - 2) p2.error
      ({ p3 with error := p3.error ||| 32 }, 0)

/-- Model of `ssdb::umap::init`: attach the view, run `reload` with
`m_flush = -1`, and call `finalize` when no terminator was found
(`m_lastf == -1`). -/
def initUmap {K V : Type} [DecidableEq K] (cd : Codec K V)
    (view : sfs.View BlockLayout) : Option (Umap K V) :=
  let r := reload3 (K := K) (V := V) cd.dec view 0
  let s : Umap K V :=
    { map := r.1.map, free := r.1.free, error := r.1.error, lastf := r.1.lastf,
      order := r.1.order, flush := r.2, hash := r.1.hash, view := view }
  if s.lastf = two32 - 1 then finalize cd s else some s

end ssdb

namespace ssdb

/-- The key/value serializer the scenarios below instantiate `umap` with:
a `u64` key and an `std::vector` of bytes as the value.  `enc` is
`sstl::save` of `ctx(key); ctx(value)`; `dec` is the reading-mode
traversal of a default-initialized key and then value over the
reassembled buffer, exactly as `reload` performs it. -/
def codecNB : Codec Nat (List Nat) where
  enc k v := sstl.u64Write k ++ sstl.writeBytes (.vbytes v)
  dec bs := ((sstl.u64Read 0 bs).1, (sstl.bytesRead [] (sstl.u64Read 0 bs).2).1)

/-- The `umap` state over a freshly created empty container: what `init`
leaves behind on a new file (empty map, empty free-space index — the
"all free" sentinel —, no errors, `m_lastf` at the "none" sentinel,
orders at zero). -/
def freshState : Umap Nat (List Nat) :=
  { map := [], free := [], error := 0, lastf := two32 - 1, order := 0,
    flush := 0, hash := ∅, view := { blocks := [], failsAt := fun _ => false } }

/-- Key of the two-block record scenario. -/
def c2Key : Nat := 3

/-- Value of the two-block record scenario: 4019 bytes, so the encoded
key/value buffer is 9 + 4024 = 4033 bytes — one byte more than a block's
4032-byte data area, making a two-block run. -/
def c2Val : List Nat := List.replicate 4019 1

/-- The encoded record byte string `B` of the scenario. -/
def c2Buf : List Nat := codecNB.enc c2Key c2Val

/-- One writer scope adding the two-block entry to a fresh container,
with the writer destructor persisting it (no flush). -/
def c2Run : Option (Umap Nat (List Nat)) :=
  session codecNB freshState [.add c2Key c2Val] false

/-- C4.  On a freshly created empty container, `init` does not emit a
fresh terminator: `reload` leaves `m_order = 0` and `m_flush = 0`, so the
`finalize` call guarded by `m_lastf == -1` returns at its
`m_order <= m_flush` early exit, no block is written, and `m_lastf`
still holds the `2^32 - 1` "none" sentinel after `init` completes —
against the claim that it then always holds the index of a live
terminator block. -/
theorem init_fresh_container_keeps_sentinel :
    (initUmap codecNB { blocks := [], failsAt := fun _ => false }).map
        (fun s => (s.lastf, s.order, s.flush, s.error, s.view.blocks.length))
      = some (two32 - 1, 0, 0, 0, 0) := by
  decide
end ssdb

namespace ssdb

theorem c2Buf_eq : c2Buf = [8,0,0,0,0,0,0,0,3,7,0,0,15,179] ++ List.replicate 4019 1 := by
  rw [c2Buf]
  rw [show codecNB.enc c2Key c2Val
      = sstl.u64Write 3 ++ sstl.writeBytes (.vbytes (List.replicate 4019 1)) from rfl]
  rw [show sstl.u64Write 3 = [8,0,0,0,0,0,0,0,3] from by decide]
  rw [sstl.writeBytes]
  simp only [List.length_replicate]
  norm_num
  rw [sstl.writeSized]
  simp only [List.length_replicate]
  norm_num [sstl.sizedTag, sstl.sizeBytes]
  rw [show sstl.beBytes 4 4019 = [0,0,15,179] from by decide]
  simp only [List.cons_append, List.nil_append]

theorem take_lit_replicate {α : Type} (l : List α) (a : α) (m n : Nat)
    (h : l.length ≤ n) (hr : n - l.length ≤ m) :
    (l ++ List.replicate m a).take n = l ++ List.replicate (n - l.length) a := by
  rw [List.take_append_eq_append_take, List.take_of_length_le h, List.take_replicate,
      Nat.min_eq_left hr]

theorem drop_lit_replicate {α : Type} (l : List α) (a : α) (m n : Nat) (h : l.length ≤ n) :
    (l ++ List.replicate m a).drop n = List.replicate (m - (n - l.length)) a := by
  rw [List.drop_append_eq_append_drop, List.drop_eq_nil_of_le h, List.drop_replicate,
      List.nil_append]

def c2Head : List Nat := [8,0,0,0,0,0,0,0,3,7,0,0,15,179] ++ List.replicate 4018 1

def c2Cont : List Nat := 1 :: List.replicate 4031 0

theorem c2Buf_length : c2Buf.length = 4033 := by
  rw [c2Buf_eq]
  simp only [List.length_append, List.length_replicate, List.length_cons, List.length_nil,
    Nat.reduceAdd]

theorem c2Head_length : c2Head.length = 4032 := by
  rw [c2Head]
  simp only [List.length_append, List.length_replicate, List.length_cons, List.length_nil,
    Nat.reduceAdd]

theorem chunk0_eq : chunkData c2Buf 0 = c2Head := by
  rw [chunkData, c2Buf_length, c2Buf_eq]
  rw [show sfs.data_size = 4032 from rfl]
  rw [show (0 * 4032 : Nat) = 0 from rfl, List.drop_zero]
  rw [show (4032 - min 4032 (4033 - 0) : Nat) = 0 from by omega]
  rw [List.replicate_zero, List.append_nil]
  rw [take_lit_replicate _ _ _ _ (by decide) (by decide)]
  rw [c2Head]
  rfl

theorem chunk1_eq : chunkData c2Buf 1 = c2Cont := by
  rw [chunkData, c2Buf_length, c2Buf_eq]
  rw [show sfs.data_size = 4032 from rfl]
  rw [show (1 * 4032 : Nat) = 4032 from rfl]
  rw [show (4032 - min 4032 (4033 - 4032) : Nat) = 4031 from by omega]
  rw [drop_lit_replicate _ _ _ _ (by decide)]
  rw [show ((4019 : Nat) - (4032 - ([8,0,0,0,0,0,0,0,3,7,0,0,15,179] : List Nat).length)) = 1 from by decide]
  rw [List.take_replicate, show min 4032 1 = 1 from by decide, c2Cont]
  rfl

end ssdb

namespace ssdb

theorem take_lit_short {α : Type} (l : List α) (a : α) (m n : Nat) (h : n ≤ l.length) :
    (l ++ List.replicate m a).take n = l.take n := by
  rw [List.take_append_eq_append_take, Nat.sub_eq_zero_of_le h, List.take_zero, List.append_nil]

theorem drop_lit_short {α : Type} (l : List α) (a : α) (m n : Nat) (h : n ≤ l.length) :
    (l ++ List.replicate m a).drop n = l.drop n ++ List.replicate m a := by
  rw [List.drop_append_eq_append_drop, Nat.sub_eq_zero_of_le h, List.drop_zero]

theorem c2_rdTake8 :
    sstl.rdTake 8 (([0,0,0,0,0,0,0,3,7,0,0,15,179] : List Nat) ++ List.replicate 4019 1)
      = ([0,0,0,0,0,0,0,3], [7,0,0,15,179] ++ List.replicate 4019 1) := by
  rw [sstl.rdTake, if_pos (by
    simp only [List.length_append, List.length_cons, List.length_nil, List.length_replicate]
    omega)]
  rw [take_lit_short _ _ _ _ (by decide), drop_lit_short _ _ _ _ (by decide)]
  rw [show List.take 8 ([0,0,0,0,0,0,0,3,7,0,0,15,179] : List Nat) = [0,0,0,0,0,0,0,3] from by
    decide]
  rw [show List.drop 8 ([0,0,0,0,0,0,0,3,7,0,0,15,179] : List Nat) = [7,0,0,15,179] from by
    decide]

theorem c2_rdTake4 :
    sstl.rdTake 4 (([0,0,15,179] : List Nat) ++ List.replicate 4019 1)
      = ([0,0,15,179], List.replicate 4019 1) := by
  rw [sstl.rdTake, if_pos (by
    simp only [List.length_append, List.length_cons, List.length_nil, List.length_replicate]
    omega)]
  rw [take_lit_short _ _ _ _ (by decide), drop_lit_short _ _ _ _ (by decide)]
  rw [show List.take 4 ([0,0,15,179] : List Nat) = [0,0,15,179] from by decide]
  rw [show List.drop 4 ([0,0,15,179] : List Nat) = [] from by decide, List.nil_append]

theorem c2_u64Read : sstl.u64Read 0 c2Buf = (3, [7,0,0,15,179] ++ List.replicate 4019 1) := by
  rw [c2Buf_eq]
  rw [show ([8,0,0,0,0,0,0,0,3,7,0,0,15,179] : List Nat) ++ List.replicate 4019 1
      = 8 :: (([0,0,0,0,0,0,0,3,7,0,0,15,179] : List Nat) ++ List.replicate 4019 1) from by
    simp only [List.cons_append]]
  rw [sstl.u64Read]
  simp only [c2_rdTake8]
  norm_num
  rw [show sstl.beVal [0,0,0,0,0,0,0,3] = 3 from by decide]

theorem c2_readSize7 :
    sstl.readSize 7 (([0,0,15,179] : List Nat) ++ List.replicate 4019 1)
      = (4019, List.replicate 4019 1) := by
  rw [sstl.readSize]
  simp only [c2_rdTake4]
  rw [show sstl.beVal [0,0,15,179] = 4019 from by decide]
  rw [if_neg (by decide), if_pos (by decide), if_pos (by
    simp only [List.length_replicate]
    omega)]

theorem c2_bytesRead :
    sstl.bytesRead [] ([7,0,0,15,179] ++ List.replicate 4019 1) = (List.replicate 4019 1, []) := by
  rw [show ([7,0,0,15,179] : List Nat) ++ List.replicate 4019 1
      = 7 :: (([0,0,15,179] : List Nat) ++ List.replicate 4019 1) from by
    simp only [List.cons_append]]
  rw [sstl.bytesRead]
  simp only [c2_readSize7]
  rw [if_neg (by decide), if_pos (by decide)]
  rw [List.take_replicate, List.drop_replicate]
  simp only [Nat.sub_self, min_self, List.replicate_zero]

theorem c2_dec : codecNB.dec c2Buf = (c2Key, c2Val) := by
  rw [show codecNB.dec c2Buf
      = ((sstl.u64Read 0 c2Buf).1, (sstl.bytesRead [] (sstl.u64Read 0 c2Buf).2).1) from rfl]
  rw [c2_u64Read]
  simp only []
  rw [c2_bytesRead, c2Key, c2Val]

end ssdb

namespace ssdb

def c2View : sfs.View BlockLayout :=
  { blocks := [⟨0, 0, { order := 1, size := 4033, data := c2Head, snap := ∅ }⟩,
               ⟨0, 1, { order := 1, size := two64 - 1, data := c2Cont, snap := ∅ }⟩],
    failsAt := fun _ => false }

def c2Ctrl : Control :=
  { order := 1, load_block := 0, load_count := 0, new_block := 0, new_count := 2 }

def c2SAdd : Umap Nat (List Nat) :=
  { map := [(c2Key, (nullControl, c2Val))], free := [], error := 0, lastf := two32 - 1,
    order := 0, flush := 0, hash := ∅, view := { blocks := [], failsAt := fun _ => false } }

def c2S1 : Umap Nat (List Nat) :=
  { map := [(c2Key, (c2Ctrl, c2Val))], free := [(2, two32 - 2)], error := 0,
    lastf := two32 - 1, order := 1, flush := 0, hash := {(1, 0)}, view := c2View }

theorem getFree_nil_2 : getFree [] 2 = some (0, [(2, two32 - 2)]) := by decide

theorem xorOrder_empty : xorOrder ∅ 1 0 = {(1, 0)} := by decide

theorem c2_writeRun :
    writeRun { blocks := [], failsAt := fun _ => false } 0 2 1 c2Buf = (c2View, true) := by
  simp only [writeRun, writeRunAux, sfs.writeBlock, sfs.View.count, chunk0_eq, chunk1_eq,
    c2Buf_length, two64, List.length_nil, List.length_cons, List.nil_append, List.cons_append,
    List.length_append, Nat.reduceAdd, Nat.reducePow, Nat.reduceSub, reduceIte,
    Bool.false_eq_true, or_false, false_or, gt_iff_lt, c2View]
  norm_num

end ssdb

namespace ssdb

set_option maxRecDepth 4000 in
theorem c2_writeEntry : writeEntry codecNB c2SAdd c2Key = some c2S1 := by
  rw [writeEntry]
  simp only [c2SAdd, lookupEntry, eq_self_iff_true, if_true]
  rw [show codecNB.enc c2Key c2Val = c2Buf from rfl]
  rw [c2Buf_length]
  rw [show blockCountOf 4033 = 2 from by decide]
  rw [show dirtyCtrl nullControl ∅ = (nullControl, ∅) from by decide]
  simp only []
  rw [if_pos (show nullControl.new_count ≠ 2 from by decide)]
  rw [show addFree [] nullControl.new_block nullControl.new_count = [] from by decide]
  rw [getFree_nil_2]
  simp only []
  rw [writeEntryCore]
  simp only [Nat.reduceAdd]
  rw [c2_writeRun]
  simp only []
  rw [if_pos trivial]
  rw [xorOrder_empty]
  simp only [setEntry, eq_self_iff_true, if_true]
  rw [show (⟨1, nullControl.load_block, nullControl.load_count, 0, 2⟩ : Control)
      = c2Ctrl from by decide]
  rw [c2S1]

end ssdb

namespace ssdb

theorem c2_run_eq : c2Run = some c2S1 := by
  rw [c2Run, session]
  rw [show [WOp.add c2Key c2Val].foldl applyOp (freshState, false) = (c2SAdd, true) from rfl]
  simp only []
  rw [if_pos trivial]
  rw [writeDirty]
  rw [show c2SAdd.map.map Prod.fst = [c2Key] from rfl]
  rw [writeDirtyKeys]
  rw [show lookupEntry c2SAdd.map c2Key = some (nullControl, c2Val) from by
    rw [c2SAdd, lookupEntry, if_pos rfl]]
  simp only []
  rw [if_pos (show nullControl.order = 0 from rfl)]
  rw [c2_writeEntry]
  simp only []
  rw [writeDirtyKeys]
  simp only []
  rw [if_neg (show ¬(false = true) from by decide)]

end ssdb

namespace ssdb

def c2RFinal : RState Nat (List Nat) :=
  { map := [], free := [(1, two32 - 2)], hash := ∅, order := 0,
    lastf := two32 - 1, error := 16, lastHash := ∅ }

theorem c2_pass1 : reloadPass codecNB.dec c2View (two64 - 1) 0 = c2RFinal := by decide

theorem c2_reload : reload3 codecNB.dec c2View 0 = (c2RFinal, 0) := by
  rw [reload3]
  rw [c2_pass1]
  rw [if_pos (show c2RFinal.hash = c2RFinal.lastHash from rfl)]
  rfl

end ssdb

namespace ssdb

/-- C2.  The write half of the claim holds on the code: persisting an
entry whose encoded byte string `B` has 4033 bytes yields exactly the
claimed run layout — a head block with `size = 4033` followed by one
continuation block with `size = 2^64 - 1`, both of order 1, whose data
areas reassemble to `B`, and the codec decodes `B` back to the entry.
The reload half fails on the code: the continuation loop of
`ssdb::umap::reload` only runs while more than 4032 bytes of payload
remain (never for this record), so one byte of declared size is left
over, error bit 16 is set, and the record is dropped — the reloaded map
is empty instead of rematerializing the entry. -/
theorem multiblock_record_dropped_on_reload :
    (c2Run.map fun s => s.view.blocks.map fun b => (b.index, b.payload.order, b.payload.size))
      = some [(0, 1, 4033), (1, 1, two64 - 1)]
    ∧ (c2Run.map fun s => ((s.view.blocks.map fun b => b.payload.data).flatten.take 4033))
      = some c2Buf
    ∧ codecNB.dec c2Buf = (c2Key, c2Val)
    ∧ (c2Run.map fun s =>
        ((reload3 codecNB.dec s.view 0).1.map, (reload3 codecNB.dec s.view 0).1.error))
      = some ([], 16) := by
  refine ⟨?_, ?_, c2_dec, ?_⟩
  · rw [c2_run_eq]
    rfl
  · rw [c2_run_eq]
    rw [show ((some c2S1).map fun s => ((s.view.blocks.map fun b => b.payload.data).flatten.take 4033))
        = some (((c2S1.view.blocks.map fun b => b.payload.data).flatten).take 4033) from rfl]
    rw [show (c2S1.view.blocks.map fun b => b.payload.data) = [c2Head, c2Cont] from rfl]
    rw [show ([c2Head, c2Cont] : List (List Nat)).flatten = c2Head ++ (c2Cont ++ []) from rfl]
    rw [List.append_nil]
    rw [List.take_append_eq_append_take]
    rw [List.take_of_length_le (by rw [c2Head_length]; exact by decide)]
    rw [c2Head_length]
    rw [show (4033 - 4032 : Nat) = 1 from rfl]
    rw [show c2Cont.take 1 = [1] from rfl]
    rw [c2Buf_eq, c2Head]
    rw [List.append_assoc]
    rw [show (List.replicate 4018 1 ++ [1] : List Nat) = List.replicate 4019 1 from by
      rw [show (4019 : Nat) = 4018 + 1 from rfl, ← List.replicate_succ']]
  · rw [c2_run_eq]
    rw [show ((some c2S1).map fun s =>
          ((reload3 codecNB.dec s.view 0).1.map, (reload3 codecNB.dec s.view 0).1.error))
        = some ((reload3 codecNB.dec c2View 0).1.map, (reload3 codecNB.dec c2View 0).1.error)
        from rfl]
    rw [c2_reload]
    rfl

end ssdb
namespace ssdb

/-- The terminator block the first successful flush writes (order 2,
snap = the one-entry accumulator). -/
def c1Term : BlockLayout :=
  { order := 2, size := 0, data := List.replicate 4032 0, snap := {(1, 0)} }

/-- The container contents after the flushed session: the two-block run
of the entry plus the terminator. -/
def c1View : sfs.View BlockLayout :=
  { blocks := [⟨0, 0, { order := 1, size := 4033, data := c2Head, snap := ∅ }⟩,
               ⟨0, 1, { order := 1, size := two64 - 1, data := c2Cont, snap := ∅ }⟩,
               ⟨0, 2, c1Term⟩],
    failsAt := fun _ => false }

/-- The entry control after finalize promoted the written run. -/
def c1CtrlP : Control :=
  { order := 1, load_block := 0, load_count := 2, new_block := 0, new_count := 0 }

/-- The in-memory state right after the flushed session completed. -/
def c1S2 : Umap Nat (List Nat) :=
  { map := [(c2Key, (c1CtrlP, c2Val))], free := [(3, two32 - 3), (two32 - 1, 0)], error := 0,
    lastf := 2, order := 2, flush := 2, hash := {(1, 0)}, view := c1View }

/-- One flushing writer scope adding the two-block entry to a fresh
container (`umap::flush` with one `add`). -/
def c1Flushed : Option (Umap Nat (List Nat)) :=
  session codecNB freshState [.add c2Key c2Val] true

/-- Re-opening the container after a crash: `init` on the view the
flushed session left behind. -/
def c1Reopened : Option (Umap Nat (List Nat)) :=
  c1Flushed.bind fun s => initUmap codecNB s.view

theorem c1_finalize : finalize codecNB c2S1 = some c1S2 := by
  rw [finalize]
  rw [if_neg (show ¬(c2S1.order ≤ c2S1.flush) from by decide)]
  rw [show writeDirty codecNB c2S1 = some c2S1 from by
    rw [writeDirty]
    rw [show c2S1.map.map Prod.fst = [c2Key] from rfl]
    rw [writeDirtyKeys]
    rw [show lookupEntry c2S1.map c2Key = some (c2Ctrl, c2Val) from by
      rw [show c2S1.map = [(c2Key, (c2Ctrl, c2Val))] from rfl, lookupEntry, if_pos rfl]]
    simp only []
    rw [if_neg (show ¬(c2Ctrl.order = 0) from by decide)]
    rw [writeDirtyKeys]]
  simp only []
  rw [finalizeAfterWrites]
  rw [show getFree c2S1.free 1 = some (2, [(3, two32 - 3)]) from by decide]
  simp only []
  rw [show sfs.writeBlock c2S1.view 2 (mkTerm (c2S1.order + 1) c2S1.hash) 0
      = some { blocks := c2View.blocks ++ [⟨0, 2, c1Term⟩], failsAt := fun _ => false } from by
    rw [sfs.writeBlock]
    rw [if_neg (show ¬(2 > sfs.View.count c2S1.view ∨ c2S1.view.failsAt 2 = true) from by decide)]
    rw [if_pos (show 2 = sfs.View.count c2S1.view from by decide)]
    rw [show mkTerm (c2S1.order + 1) c2S1.hash = c1Term from by
      rw [mkTerm]; rw [c1Term]; rfl]
    rfl]
  simp only []
  rw [show addFree [(3, two32 - 3)] c2S1.lastf 1 = [(3, two32 - 3), (two32 - 1, 0)] from by decide]
  rw [show c2S1.map = [(c2Key, (c2Ctrl, c2Val))] from rfl, promoteEntries]
  rw [if_pos (show c2Ctrl.new_count ≠ 0 from by decide)]
  rw [show addFree [(3, two32 - 3), (two32 - 1, 0)] c2Ctrl.load_block c2Ctrl.load_count
      = [(3, two32 - 3), (two32 - 1, 0)] from by decide]
  rw [promoteEntries]
  simp only []
  rw [c1S2]
  rfl

end ssdb

namespace ssdb

theorem c1_flushed_eq : c1Flushed = some c1S2 := by
  rw [c1Flushed, session]
  rw [show [WOp.add c2Key c2Val].foldl applyOp (freshState, false) = (c2SAdd, true) from rfl]
  simp only []
  rw [if_pos trivial]
  rw [writeDirty]
  rw [show c2SAdd.map.map Prod.fst = [c2Key] from rfl]
  rw [writeDirtyKeys]
  rw [show lookupEntry c2SAdd.map c2Key = some (nullControl, c2Val) from by
    rw [c2SAdd, lookupEntry, if_pos rfl]]
  simp only []
  rw [if_pos (show nullControl.order = 0 from rfl)]
  rw [c2_writeEntry]
  simp only []
  rw [writeDirtyKeys]
  simp only []
  rw [if_pos trivial]
  rw [c1_finalize]

theorem c1_init_eval :
    (initUmap codecNB c1View).map (fun s => (s.map, s.error, s.flush, s.order))
      = some ([], 48, 3, 3) := by decide

theorem c1_init_bits :
    (initUmap codecNB c1View).map (fun s => (s.map, s.error.testBit 5, s.error.testBit 4))
      = some ([], true, true) := by decide

end ssdb

namespace ssdb

/-- C1.  A flushed session is not recovered on reopen: after one
flushing writer scope adds a two-block entry to a fresh container (the
flush completes with no errors, terminator written, `m_flush = 2`), the
claim says reopening yields the flushed map with error bit 32 clear.  On
the code, reload's continuation-loop defect drops the record in all
three passes (error bit 16), the first two passes end with a combined
hash (empty) that cannot match the terminator's snapshot, and the third
pass sets the salvage bit: the reopened map is empty and error bit 32 is
set. -/
theorem flushed_map_lost_on_reopen :
    (c1Flushed.map fun s => ((lookupEntry s.map c2Key).map Prod.snd, s.error, s.flush, s.order))
      = some (some c2Val, 0, 2, 2)
    ∧ (c1Reopened.map fun s => (s.map, s.error.testBit 5, s.error.testBit 4))
      = some ([], true, true) := by
  constructor
  · rw [c1_flushed_eq]
    rfl
  · conv_lhs => rw [c1Reopened, c1_flushed_eq]
    show (initUmap codecNB c1S2.view).map (fun s => (s.map, s.error.testBit 5, s.error.testBit 4))
      = some ([], true, true)
    rw [show c1S2.view = c1View from rfl]
    exact c1_init_bits

end ssdb
namespace ssdb

theorem lookup_setEntry_self {K V : Type} [DecidableEq K] (m : List (K × Control × V)) (k : K)
    (cv cv' : Control × V) (h : lookupEntry m k = some cv) :
    lookupEntry (setEntry m k cv') k = some cv' := by
  induction m with
  | nil => simp [lookupEntry] at h
  | cons e rest ih =>
    obtain ⟨k0, cv0⟩ := e
    by_cases hk : k0 = k
    · subst hk
      simp [setEntry, lookupEntry]
    · rw [setEntry, if_neg hk, lookupEntry, if_neg hk]
      rw [lookupEntry, if_neg hk] at h
      exact ih h

theorem lookup_setEntry_other {K V : Type} [DecidableEq K] (m : List (K × Control × V)) (k k' : K)
    (cv' : Control × V) (hne : k' ≠ k) :
    lookupEntry (setEntry m k cv') k' = lookupEntry m k' := by
  induction m with
  | nil => simp [setEntry]
  | cons e rest ih =>
    obtain ⟨k0, cv0⟩ := e
    by_cases hk : k0 = k
    · subst hk
      rw [setEntry, if_pos rfl, lookupEntry, lookupEntry, if_neg (fun h => hne h.symm),
        if_neg (fun h => hne h.symm)]
    · rw [setEntry, if_neg hk, lookupEntry, lookupEntry]
      by_cases hk' : k0 = k'
      · rw [if_pos hk', if_pos hk']
      · rw [if_neg hk', if_neg hk']
        exact ih

theorem xorOrder_cancel (h : Hash) (o p : Nat) : xorOrder (xorOrder h o p) o p = h := by
  rw [xorOrder, xorOrder]
  exact symmDiff_symmDiff_cancel_right {(o, p)} h

end ssdb

namespace ssdb

/-- C9.  When any block write of an entry's reserved run fails,
`ssdb::umap::write` aborts exactly as claimed: the reserved run is
returned to the free-space index, the new hash contribution is XORed
back out (leaving the accumulator where `dirty` put it, i.e. with the
entry's previous contribution already removed), the entry's control is
reset to dirty (`order = 0`, no written run) with its loaded run left
alone, error bit 64 is set, the order counter is rolled back, and
`m_flush`, `m_lastf` and every other entry are untouched. -/
theorem write_failure_aborts_entry {K V : Type} [DecidableEq K] (cd : Codec K V)
    (s s' : Umap K V) (k : K) (c : Control) (v : V) (nb : Nat) (f1 : Free)
    (hl : lookupEntry s.map k = some (c, v))
    (halloc : if (dirtyCtrl c s.hash).1.new_count ≠ blockCountOf (cd.enc k v).length then
        getFree (addFree s.free (dirtyCtrl c s.hash).1.new_block (dirtyCtrl c s.hash).1.new_count)
            (blockCountOf (cd.enc k v).length) = some (nb, f1)
      else nb = (dirtyCtrl c s.hash).1.new_block ∧ f1 = s.free)
    (hfail : (writeRun s.view nb (blockCountOf (cd.enc k v).length) (s.order + 1) (cd.enc k v)).2
        = false)
    (hs' : writeEntry cd s k = some s') :
    s'.free = addFree f1 nb (blockCountOf (cd.enc k v).length)
    ∧ s'.hash = (dirtyCtrl c s.hash).2
    ∧ s'.order = s.order
    ∧ s'.error = s.error ||| 64
    ∧ s'.flush = s.flush
    ∧ s'.lastf = s.lastf
    ∧ lookupEntry s'.map k
        = some ({ c with order := 0, new_block := 0, new_count := 0 }, v)
    ∧ (∀ k', k' ≠ k → lookupEntry s'.map k' = lookupEntry s.map k') := by
  rw [writeEntry, hl] at hs'
  simp only [] at hs'
  have hctrl : ∀ h₀ : Hash,
      ({ (dirtyCtrl c s.hash).1 with order := 0, new_block := 0, new_count := 0 } : Control)
        = { c with order := 0, new_block := 0, new_count := 0 } := by
    intro h₀
    rw [dirtyCtrl]
    by_cases ho : c.order ≠ 0
    · rw [if_pos ho]
    · rw [if_neg ho]
  by_cases hnc : (dirtyCtrl c s.hash).1.new_count ≠ blockCountOf (cd.enc k v).length
  · rw [if_pos hnc] at hs' halloc
    rw [halloc] at hs'
    simp only [] at hs'
    rw [writeEntryCore] at hs'
    rw [hfail] at hs'
    rw [if_neg (by decide)] at hs'
    cases hs'
    refine ⟨rfl, ?_, by simp, rfl, rfl, rfl, ?_, ?_⟩
    · exact xorOrder_cancel _ _ _
    · rw [lookup_setEntry_self s.map k (c, v) _ hl, hctrl s.hash]
    · intro k' hk'
      exact lookup_setEntry_other s.map k k' _ hk'
  · rw [if_neg hnc] at hs' halloc
    obtain ⟨hnb, hf1⟩ := halloc
    subst hnb
    subst hf1
    rw [writeEntryCore] at hs'
    rw [hfail] at hs'
    rw [if_neg (by decide)] at hs'
    cases hs'
    refine ⟨rfl, ?_, by simp, rfl, rfl, rfl, ?_, ?_⟩
    · exact xorOrder_cancel _ _ _
    · rw [lookup_setEntry_self s.map k (c, v) _ hl, hctrl s.hash]
    · intro k' hk'
      exact lookup_setEntry_other s.map k k' _ hk'

end ssdb

namespace ssdb

/-- Toy codec for the write-failure scenario: two bytes per record. -/
def c9Cd : Codec Nat Nat where
  enc k v := [k % 256, v % 256]
  dec _ := (0, 0)

/-- One dirty entry over a container whose physical writes all fail. -/
def c9S : Umap Nat Nat :=
  { map := [(1, (nullControl, 5))], free := [], error := 0, lastf := two32 - 1,
    order := 0, flush := 0, hash := ∅, view := { blocks := [], failsAt := fun _ => true } }

/-- The state `write` leaves after the failed block write: run freed
(merging back into the free space as `[(0, 0)]` by u32 wrap), control
dirty again, error bit 64. -/
def c9S' : Umap Nat Nat :=
  { map := [(1, (nullControl, 5))], free := [(0, 0)], error := 64, lastf := two32 - 1,
    order := 0, flush := 0, hash := ∅, view := { blocks := [], failsAt := fun _ => true } }

theorem write_failure_aborts_entry_witness :
    c9S'.free = addFree [(1, two32 - 1)] 0 (blockCountOf (c9Cd.enc 1 5).length)
    ∧ c9S'.hash = (dirtyCtrl nullControl c9S.hash).2
    ∧ c9S'.order = c9S.order
    ∧ c9S'.error = c9S.error ||| 64
    ∧ c9S'.flush = c9S.flush
    ∧ c9S'.lastf = c9S.lastf
    ∧ lookupEntry c9S'.map 1
        = some ({ nullControl with order := 0, new_block := 0, new_count := 0 }, 5) := by
  have h := write_failure_aborts_entry c9Cd c9S c9S' 1 nullControl 5 0 [(1, two32 - 1)]
    (by decide) (by decide) (by decide) rfl
  exact ⟨h.1, h.2.1, h.2.2.1, h.2.2.2.1, h.2.2.2.2.1, h.2.2.2.2.2.1, h.2.2.2.2.2.2.1⟩

end ssdb
namespace ssdb

/-- The head block of an entry's current run: the newly written run when
one exists, else the loaded one — the key `ssdb::umap::dirty` uses to
remove the entry's contribution. -/
def headBlock (c : Control) : Nat :=
  if c.new_count ≠ 0 then c.new_block else c.load_block

/-- The entry's current contribution to the combined accumulator: the
(order, head block) pair when the entry is live (has an order), nothing
when it is dirty. -/
def contribIf (c : Control) : Hash :=
  if c.order ≠ 0 then {(c.order, headBlock c)} else ∅

/-- XOR of the contributions of all live entries of the map. -/
def liveSet {K V : Type} : List (K × Control × V) → Hash
  | [] => ∅
  | (_, c, _) :: rest => symmDiff (liveSet rest) (contribIf c)

theorem dirtyCtrl_hash (c : Control) (h : Hash) :
    (dirtyCtrl c h).2 = symmDiff h (contribIf c) := by
  rw [dirtyCtrl, contribIf]
  by_cases ho : c.order ≠ 0
  · rw [if_pos ho, if_pos ho]
    rfl
  · rw [if_neg ho, if_neg ho]
    exact (symmDiff_bot h).symm

theorem liveSet_setEntry {K V : Type} [DecidableEq K] (m : List (K × Control × V)) (k : K)
    (c : Control) (v : V) (c' : Control) (v' : V) (hl : lookupEntry m k = some (c, v)) :
    liveSet (setEntry m k (c', v'))
      = symmDiff (symmDiff (liveSet m) (contribIf c)) (contribIf c') := by
  induction m with
  | nil => simp [lookupEntry] at hl
  | cons e rest ih =>
    obtain ⟨k0, c0, v0⟩ := e
    rw [lookupEntry] at hl
    by_cases hk : k0 = k
    · rw [if_pos hk] at hl
      cases hl
      rw [setEntry, if_pos hk, liveSet, liveSet]
      rw [symmDiff_assoc, symmDiff_assoc, symmDiff_symmDiff_cancel_left]
    · rw [if_neg hk] at hl
      rw [setEntry, if_neg hk, liveSet, liveSet, ih hl]
      rw [symmDiff_assoc, symmDiff_assoc, symmDiff_assoc, symmDiff_assoc]
      congr 1
      rw [symmDiff_comm (contribIf c') (contribIf c0), ← symmDiff_assoc,
        symmDiff_comm (contribIf c) (contribIf c0), symmDiff_assoc]

theorem blockCountOf_pos (len : Nat) (h : len ≠ 0) : blockCountOf len ≠ 0 := by
  rw [blockCountOf]
  rw [show sfs.data_size = 4032 from rfl]
  by_cases hm : len % 4032 ≠ 0
  · rw [if_pos hm]
    omega
  · rw [if_neg hm]
    omega

end ssdb

namespace ssdb

theorem writeEntryCore_inv {K V : Type} [DecidableEq K] (s : Umap K V) (k : K) (v : V)
    (c c1 : Control) (h1 : Hash) (ord : Nat) (buf : List Nat) (cnt nb : Nat) (f1 : Free)
    (hl : lookupEntry s.map k = some (c, v))
    (hinv : s.hash = liveSet s.map)
    (hh1 : h1 = symmDiff s.hash (contribIf c))
    (hcnt : cnt ≠ 0) (hord : ord ≠ 0) :
    (writeEntryCore s k v c1 h1 ord buf cnt nb f1).hash
      = liveSet (writeEntryCore s k v c1 h1 ord buf cnt nb f1).map := by
  rw [writeEntryCore]
  cases hwr : (writeRun s.view nb cnt ord buf).2 with
  | true =>
    rw [if_pos rfl]
    simp only []
    rw [liveSet_setEntry s.map k c v _ v hl]
    rw [show contribIf { c1 with order := ord, new_block := nb, new_count := cnt }
        = {(ord, nb)} from by
      rw [contribIf, if_pos (by simpa using hord), headBlock, if_pos (by simpa using hcnt)]]
    rw [xorOrder, hh1, hinv]
  | false =>
    rw [if_neg (by simp)]
    simp only []
    rw [liveSet_setEntry s.map k c v _ v hl]
    rw [show contribIf { c1 with order := 0, new_block := 0, new_count := 0 } = ∅ from by
      rw [contribIf, if_neg (by simp)]]
    rw [← Finset.bot_eq_empty, symmDiff_bot, xorOrder, xorOrder, hh1, hinv]
    exact symmDiff_symmDiff_cancel_right _ _

theorem writeEntry_inv {K V : Type} [DecidableEq K] (cd : Codec K V)
    (henc : ∀ k v, (cd.enc k v).length ≠ 0) (s s' : Umap K V) (k : K)
    (hinv : s.hash = liveSet s.map)
    (h : writeEntry cd s k = some s') :
    s'.hash = liveSet s'.map := by
  rw [writeEntry] at h
  cases hl : lookupEntry s.map k with
  | none =>
    rw [hl] at h
    cases h
    exact hinv
  | some cv =>
    obtain ⟨c, v⟩ := cv
    rw [hl] at h
    simp only [] at h
    have hcnt : blockCountOf (cd.enc k v).length ≠ 0 :=
      blockCountOf_pos _ (henc k v)
    by_cases hnc : (dirtyCtrl c s.hash).1.new_count ≠ blockCountOf (cd.enc k v).length
    · rw [if_pos hnc] at h
      cases hgf : getFree (addFree s.free (dirtyCtrl c s.hash).1.new_block
          (dirtyCtrl c s.hash).1.new_count) (blockCountOf (cd.enc k v).length) with
      | none =>
        rw [hgf] at h
        cases h
      | some e =>
        obtain ⟨nb, f1⟩ := e
        rw [hgf] at h
        simp only [] at h
        cases h
        exact writeEntryCore_inv s k v c _ _ _ _ _ _ _ hl hinv (dirtyCtrl_hash c s.hash)
          hcnt (Nat.succ_ne_zero _)
    · rw [if_neg hnc] at h
      cases h
      exact writeEntryCore_inv s k v c _ _ _ _ _ _ _ hl hinv (dirtyCtrl_hash c s.hash)
        hcnt (Nat.succ_ne_zero _)

end ssdb

namespace ssdb

theorem writeDirtyKeys_inv {K V : Type} [DecidableEq K] (cd : Codec K V)
    (henc : ∀ k v, (cd.enc k v).length ≠ 0) :
    ∀ (ks : List K) (s s1 : Umap K V), s.hash = liveSet s.map →
      writeDirtyKeys cd ks s = some s1 → s1.hash = liveSet s1.map
  | [], s, s1, hinv, h => by
    rw [writeDirtyKeys] at h
    cases h
    exact hinv
  | k :: ks, s, s1, hinv, h => by
    rw [writeDirtyKeys] at h
    cases hl : lookupEntry s.map k with
    | none =>
      rw [hl] at h
      exact writeDirtyKeys_inv cd henc ks s s1 hinv h
    | some cv =>
      obtain ⟨c, v⟩ := cv
      rw [hl] at h
      simp only [] at h
      by_cases ho : c.order = 0
      · rw [if_pos ho] at h
        cases hw : writeEntry cd s k with
        | none =>
          rw [hw] at h
          cases h
        | some s' =>
          rw [hw] at h
          simp only [] at h
          exact writeDirtyKeys_inv cd henc ks s' s1
            (writeEntry_inv cd henc s s' k hinv hw) h
      · rw [if_neg ho] at h
        exact writeDirtyKeys_inv cd henc ks s s1 hinv h

theorem promote_liveSet {K V : Type} :
    ∀ (m : List (K × Control × V)) (f : Free), liveSet (promoteEntries m f).1 = liveSet m
  | [], f => rfl
  | (k, c, v) :: rest, f => by
    rw [promoteEntries]
    by_cases hn : c.new_count ≠ 0
    · rw [if_pos hn]
      simp only [liveSet]
      rw [promote_liveSet rest _]
      congr 1
      simp only [contribIf, headBlock]
      by_cases ho : c.order ≠ 0
      · rw [if_pos ho, if_pos ho, if_neg (by simp), if_pos hn]
      · rw [if_neg ho, if_neg ho]
    · rw [if_neg hn]
      simp only [liveSet]
      rw [promote_liveSet rest f]

end ssdb

namespace ssdb

theorem readBlock_after_writeBlock {α : Type} (v v' : sfs.View α) (i : Nat) (p : α) (c : Nat)
    (h : sfs.writeBlock v i p c = some v') : sfs.readBlock v' i c = some p := by
  unfold sfs.writeBlock at h
  split at h
  · exact absurd h (by simp)
  · rename_i hcnt
    split at h
    · cases h
      rename_i heq
      simp [sfs.readBlock, sfs.View.count, heq, List.getElem?_concat_length]
    · cases h
      rename_i heq
      have hlt : i < v.blocks.length := by
        rcases Nat.lt_or_ge i v.blocks.length with hx | hx
        · exact hx
        · exact absurd (Nat.le_antisymm (Nat.not_lt.mp (fun hh => hcnt (Or.inl hh))) hx) heq
      simp [sfs.readBlock, sfs.View.count, List.getElem?_set_self, hlt]

end ssdb

namespace ssdb

/-- C5.  Whenever `finalize` actually writes a terminator (the dirty
writes succeeded, a block was allocated, and the terminator's
`write_block` succeeded), and the combined accumulator was the XOR of
the live entries' `(order, head block)` contributions beforehand, then
after `finalize` the accumulator is again exactly the XOR over the set
of live entries (the promotion of written runs moves each head block
from `new_block` to `load_block` without changing any contribution), the
new terminator (size 0) sits at `m_lastf` and stores that same
accumulator value in its data prefix, and `m_flush` equals `m_order`. -/
theorem finalize_writes_correct_snapshot {K V : Type} [DecidableEq K] (cd : Codec K V)
    (s s1 s2 : Umap K V) (np : Nat) (f1 : Free) (v' : sfs.View BlockLayout)
    (henc : ∀ k v, (cd.enc k v).length ≠ 0)
    (hinv : s.hash = liveSet s.map)
    (hflush : s.flush < s.order)
    (hwd : writeDirty cd s = some s1)
    (hgf : getFree s1.free 1 = some (np, f1))
    (hwb : sfs.writeBlock s1.view np (mkTerm (s1.order + 1) s1.hash) 0 = some v')
    (hfin : finalize cd s = some s2) :
    s2.hash = liveSet s2.map
    ∧ s2.lastf = np
    ∧ s2.flush = s2.order
    ∧ readBlk s2.view s2.lastf = some (mkTerm (s1.order + 1) s1.hash)
    ∧ (mkTerm (s1.order + 1) s1.hash).size = 0
    ∧ (mkTerm (s1.order + 1) s1.hash).snap = s2.hash := by
  rw [finalize] at hfin
  rw [if_neg (by omega)] at hfin
  rw [hwd] at hfin
  simp only [] at hfin
  rw [finalizeAfterWrites, hgf] at hfin
  simp only [] at hfin
  rw [hwb] at hfin
  simp only [] at hfin
  cases hfin
  have hinv1 : s1.hash = liveSet s1.map := by
    rw [writeDirty] at hwd
    exact writeDirtyKeys_inv cd henc _ s s1 hinv hwd
  refine ⟨?_, rfl, rfl, ?_, rfl, ?_⟩
  · simp only []
    rw [promote_liveSet]
    exact hinv1
  · simp only []
    rw [readBlk]
    exact readBlock_after_writeBlock _ _ _ _ _ hwb
  · rfl

end ssdb

namespace ssdb

/-- A one-entry state whose single entry is live with a loaded one-block
run at block 0 and whose accumulator holds exactly that contribution. -/
def c5S : Umap Nat Nat :=
  { map := [(1, (⟨1, 0, 1, 0, 0⟩, 5))], free := [(1, two32 - 2)], error := 0,
    lastf := two32 - 1, order := 1, flush := 0, hash := {(1, 0)},
    view := { blocks := [⟨0, 0, { order := 1, size := 2, data := [1, 5], snap := ∅ }⟩],
              failsAt := fun _ => false } }

/-- The container after `finalize` appended the terminator. -/
def c5V' : sfs.View BlockLayout :=
  { blocks := [⟨0, 0, { order := 1, size := 2, data := [1, 5], snap := ∅ }⟩,
               ⟨0, 1, mkTerm 2 {(1, 0)}⟩],
    failsAt := fun _ => false }

/-- The state `finalize` leaves: terminator at block 1, orders advanced. -/
def c5S2 : Umap Nat Nat :=
  { map := [(1, (⟨1, 0, 1, 0, 0⟩, 5))], free := [(2, two32 - 3)], error := 0,
    lastf := 1, order := 2, flush := 2, hash := {(1, 0)}, view := c5V' }

theorem finalize_writes_correct_snapshot_witness :
    c5S2.hash = liveSet c5S2.map
    ∧ c5S2.lastf = 1
    ∧ c5S2.flush = c5S2.order
    ∧ readBlk c5S2.view c5S2.lastf = some (mkTerm (c5S.order + 1) c5S.hash)
    ∧ (mkTerm (c5S.order + 1) c5S.hash).size = 0
    ∧ (mkTerm (c5S.order + 1) c5S.hash).snap = c5S2.hash := by
  exact finalize_writes_correct_snapshot c9Cd c5S c5S c5S2 1 [(2, two32 - 3)] c5V'
    (fun k v => by simp [c9Cd])
    (by decide) (by decide) rfl (by decide) rfl rfl

end ssdb
